import Mathlib

/-!
Verification of the enemy-simulation and powerup core of the repository
(files src/enemies.rs, src/powerups.rs, src/playing.rs).

Modelling conventions.
The game stores positions, radii and areas as f32; we embed this arithmetic
exactly over the rationals and the reals (no rounding), which is the standard
idealisation for the geometry used here.  Every length constant of the game is
a decimal rational (17.5, 23.0, 1.2, 100.0, 200.0, ...), so all comparisons
the code performs are exact rational comparisons once distances are squared:
for 0 <= r, dist p q <= r holds iff distSq p q <= r^2 (the code compares
Vec2::distance, i.e. a square root, against the radius; we compare the squared
distance against the squared radius, which is equivalent and decidable; the
lemma vdist_le_iff_distSq_le below records the equivalence).
Visual areas are pi times a rational coefficient (pi * radius^2 * multiplier),
so the DandelionAreaTracker resource, whose value is a sum of such areas, is
modelled by its rational coefficient (field area of GState below); the real
tracker value is pi * area, and the area-invariant theorems are stated about
that real value.
Bevy entities are modelled by natural-number ids; a component that may or may
not be attached (MovingDandelion, UpgradeCooldown) is an optional boolean flag
on the record, per the design notes of the system.  Timers, sprites, sounds
and logging are presentation glue outside every claim and are not modelled;
random values produced by rand::thread_rng are universally quantified inputs.
-/

namespace KillAllDandelions

/-- DandelionSize from enemies.rs: the five ordered size tiers. -/
inductive DandelionSize where
  | Tiny
  | Small
  | Medium
  | Large
  | Huge
deriving DecidableEq, Repr

namespace DandelionSize

/-- Numeric position of a tier on the ladder Tiny..Huge (for monotonicity
statements about the fixed attribute tables). -/
def tierIdx : DandelionSize → ℕ
  | Tiny => 0
  | Small => 1
  | Medium => 2
  | Large => 3
  | Huge => 4

/-- enemies.rs spawn_count: seeds emitted when a dandelion of this size dies. -/
def spawn_count : DandelionSize → ℕ
  | Tiny => 2
  | Small => 3
  | Medium => 4
  | Large => 5
  | Huge => 6

/-- enemies.rs collision_radius. -/
def collision_radius : DandelionSize → ℚ
  | Tiny => 17.5
  | Small => 23.0
  | Medium => 28.0
  | Large => 35.0
  | Huge => 44.0

/-- enemies.rs merge_radius: collision_radius * 1.2. -/
def merge_radius (s : DandelionSize) : ℚ :=
  s.collision_radius * 1.2

/-- enemies.rs visual_area size multiplier (the match inside visual_area). -/
def sizeMultiplier : DandelionSize → ℚ
  | Tiny => 1.0
  | Small => 1.2
  | Medium => 1.5
  | Large => 2.0
  | Huge => 3.0

/-- Rational coefficient of the visual area: radius^2 * multiplier.  The f32
value computed by enemies.rs visual_area is pi times this coefficient. -/
def visualAreaCoeff (s : DandelionSize) : ℚ :=
  s.collision_radius ^ 2 * s.sizeMultiplier

/-- enemies.rs visual_area: pi * radius^2 * size multiplier, as a real. -/
noncomputable def visual_area (s : DandelionSize) : ℝ :=
  Real.pi * (s.visualAreaCoeff : ℝ)

/-- enemies.rs next_size: the next tier up, none for Huge. -/
def next_size : DandelionSize → Option DandelionSize
  | Tiny => some Small
  | Small => some Medium
  | Medium => some Large
  | Large => some Huge
  | Huge => none

/-- enemies.rs base_health. -/
def base_health : DandelionSize → ℕ
  | Tiny => 1
  | Small => 2
  | Medium => 3
  | Large => 4
  | Huge => 5

end DandelionSize

/-! ## Geometry

Positions are rational pairs; distSq is the squared Euclidean distance, vdist
the real distance computed by Vec2::distance. -/

/-- Squared Euclidean distance of two rational points. -/
def distSq (p q : ℚ × ℚ) : ℚ :=
  (p.1 - q.1) ^ 2 + (p.2 - q.2) ^ 2

/-- Real Euclidean distance of two real points (Vec2::distance). -/
noncomputable def vdist (p q : ℝ × ℝ) : ℝ :=
  Real.sqrt ((p.1 - q.1) ^ 2 + (p.2 - q.2) ^ 2)

/-- Cast a rational point to a real point. -/
def toR (p : ℚ × ℚ) : ℝ × ℝ := ((p.1 : ℝ), (p.2 : ℝ))

theorem distSq_nonneg (p q : ℚ × ℚ) : 0 ≤ distSq p q := by
  unfold distSq; positivity

theorem vdist_sq_eq (p q : ℚ × ℚ) :
    vdist (toR p) (toR q) ^ 2 = ((distSq p q : ℚ) : ℝ) := by
  unfold vdist toR distSq
  rw [Real.sq_sqrt (by positivity)]
  push_cast
  ring

/-- The comparison the code performs, dist p q <= r, is equivalent to the
squared rational comparison distSq p q <= r^2 whenever 0 <= r. -/
theorem vdist_le_iff_distSq_le (p q : ℚ × ℚ) (r : ℚ) (hr : 0 ≤ r) :
    vdist (toR p) (toR q) ≤ (r : ℝ) ↔ distSq p q ≤ r ^ 2 := by
  have h0 : 0 ≤ vdist (toR p) (toR q) := Real.sqrt_nonneg _
  constructor
  · intro h
    have hsq : vdist (toR p) (toR q) ^ 2 ≤ (r : ℝ) ^ 2 := by
      have := mul_self_le_mul_self h0 h
      simpa [pow_two] using this
    rw [vdist_sq_eq] at hsq
    exact_mod_cast hsq
  · intro h
    have hsq : vdist (toR p) (toR q) ^ 2 ≤ (r : ℝ) ^ 2 := by
      rw [vdist_sq_eq]; exact_mod_cast h
    exact (abs_le_of_sq_le_sq' hsq (by exact_mod_cast hr)).2

/-! ## Entities and the game state

A Dand bundles what the ECS attaches to one dandelion entity: its Entity id,
the translation of its Transform, the Dandelion component (health, size), and
the presence of the UpgradeCooldown and MovingDandelion tag components. -/

/-- One live dandelion entity. -/
structure Dand where
  id : ℕ
  pos : ℚ × ℚ
  size : DandelionSize
  health : ℕ
  /-- The entity currently carries an UpgradeCooldown component. -/
  cooldown : Bool
  /-- The entity currently carries a MovingDandelion component. -/
  moving : Bool
deriving DecidableEq, Repr

/-- FireData / FireIgnition as the fire systems see it: position, radius and
chain-reaction generation (powerups.rs). -/
structure Fire where
  fpos : ℚ × ℚ
  radius : ℚ
  generation : ℕ
deriving DecidableEq, Repr

/-- powerups.rs FIRE_RADIUS. -/
def FIRE_RADIUS : ℚ := 100.0

/-- powerups.rs FireManager MAX_GENERATION. -/
def MAX_GENERATION : ℕ := 5

/-- Sum of the rational visual-area coefficients of a list of dandelions.
pi times this value is the sum of visual_area over the list. -/
def areaCoeffOf (l : List Dand) : ℚ :=
  (l.map (fun d => d.size.visualAreaCoeff)).sum

/-- The state the claims quantify over: the live dandelion entities, the live
fire ignition entities, the DandelionAreaTracker value (divided by pi, see the
file comment) and a fresh-entity-id counter. -/
structure GState where
  dands : List Dand
  fires : List Fire
  /-- DandelionAreaTracker.total_area divided by pi. -/
  area : ℚ
  nextId : ℕ

/-- The state right after OnEnter(Playing): no enemies, a fresh area tracker
(DandelionAreaTracker default, total_area = 0). -/
def initState : GState :=
  { dands := [], fires := [], area := 0, nextId := 0 }

/-- Spawning one dandelion, as done by spawn_dandelions, update_seed_orbs and
spawn_variety_dandelions in enemies.rs: push the entity and do
area_tracker.total_area += size.visual_area().  Only variety spawning spawns
non-Tiny sizes, and it attaches MovingDandelion exactly to Huge spawns. -/
def spawnDandelion (s : GState) (pos : ℚ × ℚ) (size : DandelionSize)
    (health : ℕ) : GState :=
  { s with
    dands := s.dands ++ [⟨s.nextId, pos, size, health, false, size = DandelionSize.Huge⟩],
    area := s.area + size.visualAreaCoeff,
    nextId := s.nextId + 1 }

/-- destroy_dandelion in enemies.rs (and the destruction part of
handle_rabbit_eating_dandelion in powerups.rs): despawn the entity and do
area_tracker.total_area -= size.visual_area().  Destroying an id that is no
longer alive is a no-op, matching the guarded despawn in the source. -/
def destroyDandelion (s : GState) (e : ℕ) : GState :=
  match s.dands.find? (fun d => d.id = e) with
  | none => s
  | some d =>
      { s with
        dands := s.dands.filter (fun x => x.id ≠ e),
        area := s.area - d.size.visualAreaCoeff }

/-- damage_dandelion in enemies.rs: health = health.saturating_sub(1) (ℕ
subtraction is saturating); on reaching 0 the dandelion is destroyed. -/
def damageDandelion (s : GState) (e : ℕ) : GState :=
  match s.dands.find? (fun d => d.id = e) with
  | none => s
  | some d =>
      if d.health - 1 = 0 then
        destroyDandelion s e
      else
        { s with
          dands := s.dands.map (fun x =>
            if x.id = e then { x with health := x.health - 1 } else x) }

/-- spawn_dandelion_ring in enemies.rs: spawns 12 Tiny dandelions with
health 1 on a radius-100 circle around a position, WITHOUT touching the area
tracker (or the dandelion count).  The exact ring positions involve cosines
and sines; they are irrelevant to every claim, so the twelve spawn positions
are abstracted into the parameter ringPos. -/
def spawnDandelionRing (s : GState) (ringPos : Fin 12 → ℚ × ℚ) : GState :=
  { s with
    dands := s.dands ++
      (List.finRange 12).map (fun i =>
        ⟨s.nextId + i.val, ringPos i, DandelionSize.Tiny, 1, false, false⟩),
    nextId := s.nextId + 12 }

/-! ## Score and combo ledger (playing.rs GameData) -/

/-- playing.rs GameData, restricted to the score/combo ledger the claims are
about.  score and combo are u32 in the source; they are modelled as naturals
together with the u32 saturation bound below.  comboTimerDuration is the
duration the combo Timer is currently configured with, in seconds. -/
structure GameData where
  score : ℕ
  combo : ℕ
  comboTimerDuration : ℝ

/-- u32::MAX. -/
def u32Max : ℕ := 4294967295

/-- u32 saturating_add on in-range naturals. -/
def satAdd (a b : ℕ) : ℕ := min (a + b) u32Max

/-- u32 saturating_mul on in-range naturals. -/
def satMul (a b : ℕ) : ℕ := min (a * b) u32Max

/-- playing.rs GameData DANDELION_POINTS. -/
def DANDELION_POINTS : ℕ := 10

/-- playing.rs GameData INITIAL_COMBO_TIME. -/
def INITIAL_COMBO_TIME : ℝ := 3.0

/-- playing.rs GameData MAX_COMBO_TIME. -/
def MAX_COMBO_TIME : ℝ := 6.0

/-- The combo-timer duration set for a given (post-increment) combo value:
min(INITIAL_COMBO_TIME + (ln combo + 1) * 0.8, MAX_COMBO_TIME). -/
noncomputable def comboDuration (combo : ℕ) : ℝ :=
  min (INITIAL_COMBO_TIME + (Real.log (combo : ℝ) + 1) * 0.8) MAX_COMBO_TIME

/-- playing.rs GameData::add_dandelion_kill. -/
noncomputable def GameData.add_dandelion_kill (g : GameData) : GameData :=
  let combo := satAdd g.combo 1
  let score := satAdd g.score (satMul DANDELION_POINTS combo)
  { g with
    combo := combo
    score := score
    comboTimerDuration := comboDuration combo }

/-- GameData::new: score 0, combo 0, combo timer of INITIAL_COMBO_TIME. -/
noncomputable def GameData.new : GameData :=
  { score := 0, combo := 0, comboTimerDuration := INITIAL_COMBO_TIME }

/-! ## Merge pass (enemies.rs check_dandelion_merging)

The source collects all dandelions into a vector, scans all ordered pairs
(i, j) with i < j, skips a pair as soon as either entity is already in
entities_to_remove, merges same-size in-range pairs that have a next size
(recording midpoint, new size and old size and inserting both entities into
entities_to_remove), and afterwards executes every recorded merge: despawn
the two parents, adjust the area tracker by new - 2 * old, spawn the merged
dandelion at the midpoint (with MovingDandelion iff it is Huge). -/

/-- One entry of the to_merge vector: the two parent entities, the midpoint,
the resulting size and the parent size. -/
structure MergeRec where
  e1 : ℕ
  e2 : ℕ
  mpos : ℚ × ℚ
  newSize : DandelionSize
  oldSize : DandelionSize
deriving DecidableEq, Repr

/-- Midpoint of two positions: (pos1 + pos2) / 2. -/
def mergeMidpoint (p q : ℚ × ℚ) : ℚ × ℚ :=
  ((p.1 + q.1) / 2, (p.2 + q.2) / 2)

/-- The inner loop of the pair scan: d1 against every later dandelion, in
order, threading entities_to_remove (claimed) and to_merge (acc). -/
def innerScan (d1 : Dand) : List Dand → List ℕ × List MergeRec → List ℕ × List MergeRec
  | [], st => st
  | d2 :: rest, (claimed, acc) =>
      if claimed.contains d1.id ∨ claimed.contains d2.id then
        innerScan d1 rest (claimed, acc)
      else if d1.size = d2.size then
        if distSq d1.pos d2.pos ≤ d1.size.merge_radius ^ 2 then
          match d1.size.next_size with
          | some ns =>
              innerScan d1 rest
                (d1.id :: d2.id :: claimed,
                 acc ++ [⟨d1.id, d2.id, mergeMidpoint d1.pos d2.pos, ns, d1.size⟩])
          | none => innerScan d1 rest (claimed, acc)
        else innerScan d1 rest (claimed, acc)
      else innerScan d1 rest (claimed, acc)

/-- The outer loop of the pair scan. -/
def outerScan : List Dand → List ℕ × List MergeRec → List ℕ × List MergeRec
  | [], st => st
  | d :: rest, st => outerScan rest (innerScan d rest st)

/-- The to_merge vector produced by one run of check_dandelion_merging. -/
def computeMerges (l : List Dand) : List MergeRec :=
  (outerScan l ([], [])).2

/-- The entities_to_remove set after the scan. -/
def claimedIds (l : List Dand) : List ℕ :=
  (outerScan l ([], [])).1

/-- The two parent ids of every recorded merge, in order. -/
def recIds : List MergeRec → List ℕ
  | [] => []
  | m :: ms => m.e1 :: m.e2 :: recIds ms

/-- Executing one recorded merge: despawn both parents, adjust the tracker by
new - 2 * old, spawn the merged dandelion at the midpoint with the base
health of the new size (no LevelData resource present, the None branch of the
health scaling) and MovingDandelion iff the new size is Huge. -/
def execMerge (s : GState) (m : MergeRec) : GState :=
  { s with
    area := s.area - 2 * m.oldSize.visualAreaCoeff + m.newSize.visualAreaCoeff,
    dands := s.dands.filter (fun d => d.id ≠ m.e1 ∧ d.id ≠ m.e2) ++
      [⟨s.nextId, m.mpos, m.newSize, m.newSize.base_health, false,
        m.newSize = DandelionSize.Huge⟩],
    nextId := s.nextId + 1 }

/-- One run of check_dandelion_merging: scan, then execute every merge. -/
def mergeTick (s : GState) : GState :=
  (computeMerges s.dands).foldl execMerge s

/-! ## Fire system (powerups.rs update_fire_system)

One invocation of update_fire_system: rebuild active_fires from the live fire
entities, then a single pass over all dandelions marking each that is within
the radius of some fire (the first such fire in iteration order supplies the
recorded generation, one hit is enough), then destroy all marked dandelions
in a batch (area tracker decrement and kill notification each), queueing one
pending chain fire with generation + 1 at the position of each kill whose
killing generation is below MAX_GENERATION, and finally drain pending_fires,
spawning every queued chain ignition.  Visual pulsing, alpha fade and
lifetime expiry of fire entities are presentation and are not modelled. -/

/-- Whether a fire hits a position: distance <= radius, compared squared. -/
def fireHits (f : Fire) (p : ℚ × ℚ) : Bool :=
  distSq f.fpos p ≤ f.radius ^ 2

/-- Generation recorded for a dandelion position: that of the first fire in
iteration order whose radius covers it (the break after one hit). -/
def firstHitGen (fires : List Fire) (p : ℚ × ℚ) : Option ℕ :=
  (fires.find? (fun f => fireHits f p)).map Fire.generation

/-- The dandelions_to_destroy batch of one tick: each killed dandelion
together with the generation of the fire that killed it. -/
def fireKills (fires : List Fire) (dands : List Dand) : List (Dand × ℕ) :=
  dands.filterMap (fun d => (firstHitGen fires d.pos).map (fun g => (d, g)))

/-- The pending chain ignitions queued by one tick: one per kill, at the kill
position, with generation + 1, only if generation < MAX_GENERATION. -/
def firePending (fires : List Fire) (dands : List Dand) : List Fire :=
  (fireKills fires dands).filterMap (fun k =>
    if k.2 < MAX_GENERATION then
      some ⟨k.1.pos, FIRE_RADIUS, k.2 + 1⟩
    else none)

/-- One invocation of update_fire_system (kills and chain spawning; the kill
notifications feed GameData.add_dandelion_kill once per kill, modelled
separately by that function). -/
def fireTick (s : GState) : GState :=
  { s with
    dands := s.dands.filter (fun d => firstHitGen s.fires d.pos = none),
    area := s.area - areaCoeffOf ((fireKills s.fires s.dands).map Prod.fst),
    fires := s.fires ++ firePending s.fires s.dands }

/-- spawn_fire_ignition in powerups.rs: a fresh generation-0 fire of radius
FIRE_RADIUS (the flamethrower powerup and the debug key). -/
def igniteFire (s : GState) (pos : ℚ × ℚ) : GState :=
  { s with fires := s.fires ++ [⟨pos, FIRE_RADIUS, 0⟩] }

/-! ## Moving-dandelion upgrade pass
(enemies.rs check_moving_dandelion_collisions)

The outer loop iterates the moving (Huge) dandelions; the inner loop iterates
the stationary query (dandelions without MovingDandelion and without
UpgradeCooldown; the Bevy query membership is fixed for the whole pass since
component inserts issued through Commands are deferred, but size mutations
through Mut are immediate).  Before examining each stationary dandelion the
counter is compared against MAX_UPGRADES_PER_FRAME and on reaching it the
labelled break leaves both loops.  An overlap upgrades the stationary
dandelion one tier (if a next tier exists), adjusts the area tracker, and
queues deferred inserts of UpgradeCooldown (and of MovingDandelion if the new
size is Huge); the deferred inserts are applied when the pass is over. -/

/-- enemies.rs MAX_UPGRADES_PER_FRAME. -/
def MAX_UPGRADES_PER_FRAME : ℕ := 10

/-- Seconds of the Timer inside UpgradeCooldown::default. -/
def upgradeCooldownSeconds : ℚ := 1.0

/-- One recorded upgrade event: the stationary entity and its size before
and after. -/
structure UpEvent where
  id : ℕ
  oldSize : DandelionSize
  newSize : DandelionSize
deriving DecidableEq, Repr

/-- State threaded through the collision pass: current entities and tracker,
the upgrade counter, the recorded events, the deferred UpgradeCooldown and
MovingDandelion inserts, and whether the labelled break has fired. -/
structure UpPass where
  dands : List Dand
  area : ℚ
  count : ℕ
  events : List UpEvent
  pendCd : List ℕ
  pendMv : List ℕ
  stopped : Bool

/-- Replace the size of the entity with the given id. -/
def updateSize (l : List Dand) (e : ℕ) (ns : DandelionSize) : List Dand :=
  l.map (fun d => if d.id = e then { d with size := ns } else d)

/-- The body of the inner loop, for one moving dandelion (position mpos,
collision radius mrad) against the stationary entity sid. -/
def upgradeInner (mpos : ℚ × ℚ) (mrad : ℚ) (st : UpPass) (sid : ℕ) : UpPass :=
  if st.stopped then st
  else if MAX_UPGRADES_PER_FRAME ≤ st.count then { st with stopped := true }
  else
    match st.dands.find? (fun d => d.id = sid) with
    | none => st
    | some d =>
        if distSq mpos d.pos ≤ (mrad + d.size.collision_radius) ^ 2 then
          match d.size.next_size with
          | some ns =>
              { dands := updateSize st.dands sid ns
                area := st.area - d.size.visualAreaCoeff + ns.visualAreaCoeff
                count := st.count + 1
                events := st.events ++ [⟨sid, d.size, ns⟩]
                pendCd := st.pendCd ++ [sid]
                pendMv := if ns = DandelionSize.Huge then st.pendMv ++ [sid] else st.pendMv
                stopped := false }
          | none => st
        else st

/-- The two nested loops: every Huge moving dandelion against every entity of
the stationary query, in order. -/
def upgradePass (movers : List Dand) (sids : List ℕ) (st : UpPass) : UpPass :=
  movers.foldl
    (fun st m =>
      if m.size = DandelionSize.Huge then
        sids.foldl (upgradeInner m.pos m.size.collision_radius) st
      else st)
    st

/-- The pass result for a state: movers are the entities with MovingDandelion,
the stationary query is the entities with neither MovingDandelion nor
UpgradeCooldown (membership fixed at the start of the pass). -/
def upgradeResult (s : GState) : UpPass :=
  upgradePass (s.dands.filter (fun d => d.moving))
    ((s.dands.filter (fun d => ¬d.moving ∧ ¬d.cooldown)).map Dand.id)
    ⟨s.dands, s.area, 0, [], [], [], false⟩

/-- Apply the deferred component inserts queued during the pass. -/
def applyPend (cd mv : List ℕ) (l : List Dand) : List Dand :=
  l.map (fun d =>
    { d with
      cooldown := d.cooldown || cd.contains d.id
      moving := d.moving || mv.contains d.id })

/-- One run of check_moving_dandelion_collisions including the application of
the deferred inserts at the end of the frame. -/
def upgradeTick (s : GState) : GState :=
  let st := upgradeResult s
  { s with
    dands := applyPend st.pendCd st.pendMv st.dands,
    area := st.area }

/-! ## Reachability for the area-tracker invariant (claim C1)

The live-dandelion sets reachable from the fresh Playing state through the
dandelion-mutating operations of the core that maintain the tracker:
spawning (timer, seed orb, variety), clicking/slashing damage, destruction
(click, rabbit, fire batch), merging, the moving-dandelion upgrade pass, the
fire tick, and igniting fires.  spawn_dandelion_ring is deliberately NOT a
constructor here: the theorems below show it breaks the invariant. -/

inductive ReachTracked : GState → Prop where
  | init : ReachTracked initState
  | spawn (s : GState) (pos : ℚ × ℚ) (size : DandelionSize) (health : ℕ) :
      ReachTracked s → ReachTracked (spawnDandelion s pos size health)
  | damage (s : GState) (e : ℕ) :
      ReachTracked s → ReachTracked (damageDandelion s e)
  | destroy (s : GState) (e : ℕ) :
      ReachTracked s → ReachTracked (destroyDandelion s e)
  | merge (s : GState) : ReachTracked s → ReachTracked (mergeTick s)
  | upgrade (s : GState) : ReachTracked s → ReachTracked (upgradeTick s)
  | fire (s : GState) : ReachTracked s → ReachTracked (fireTick s)
  | ignite (s : GState) (pos : ℚ × ℚ) :
      ReachTracked s → ReachTracked (igniteFire s pos)

/-- Well-formedness maintained by every operation: entity ids are distinct
and below the fresh-id counter, and the tracker equals the visual-area sum
(in units of pi). -/
def WF (s : GState) : Prop :=
  (s.dands.map Dand.id).Nodup ∧
  (∀ d ∈ s.dands, d.id < s.nextId) ∧
  s.area = areaCoeffOf s.dands

/-! ## Point-to-segment distance (enemies.rs distance_point_to_line_segment)

The real-valued function is the literal translation of the source; the
rational function below computes its square (the projection parameter and the
squared distance are rational for rational inputs), which is what the slash
hit test compares against the squared radius. -/

/-- enemies.rs distance_point_to_line_segment, over the reals. -/
noncomputable def distance_point_to_line_segment (point lineStart lineEnd : ℝ × ℝ) : ℝ :=
  let lineVec : ℝ × ℝ := (lineEnd.1 - lineStart.1, lineEnd.2 - lineStart.2)
  let lineLengthSquared := lineVec.1 ^ 2 + lineVec.2 ^ 2
  if lineLengthSquared = 0 then
    vdist point lineStart
  else
    let t := min (max (((point.1 - lineStart.1) * lineVec.1 +
      (point.2 - lineStart.2) * lineVec.2) / lineLengthSquared) 0) 1
    vdist point (lineStart.1 + t * lineVec.1, lineStart.2 + t * lineVec.2)

/-- The square of distance_point_to_line_segment, over the rationals (same
branches, same clamped projection parameter, squared distance instead of
distance). -/
def segDistSq (point lineStart lineEnd : ℚ × ℚ) : ℚ :=
  let lineVec : ℚ × ℚ := (lineEnd.1 - lineStart.1, lineEnd.2 - lineStart.2)
  let lineLengthSquared := lineVec.1 ^ 2 + lineVec.2 ^ 2
  if lineLengthSquared = 0 then
    distSq point lineStart
  else
    let t := min (max (((point.1 - lineStart.1) * lineVec.1 +
      (point.2 - lineStart.2) * lineVec.2) / lineLengthSquared) 0) 1
    distSq point (lineStart.1 + t * lineVec.1, lineStart.2 + t * lineVec.2)

/-! ## Click and slash hit resolution
(enemies.rs handle_dandelion_clicks, process_dandelion_hit,
process_slash_attack)

Both are modelled as the list of damaged entity ids, in the order the source
damages them. -/

/-- The click-mode hit test: the collision-radius circle contains the click
point. -/
def clickHit (clickPos : ℚ × ℚ) (d : Dand) : Bool :=
  distSq clickPos d.pos ≤ d.size.collision_radius ^ 2

/-- enemies.rs process_dandelion_hit: damage the first dandelion in iteration
order whose circle contains the click point, then break. -/
def process_dandelion_hit (l : List Dand) (clickPos : ℚ × ℚ) : List ℕ :=
  match l.find? (clickHit clickPos) with
  | some d => [d.id]
  | none => []

/-- Start of the slash segment: click position + (offset, offset). -/
def slashStart (clickPos : ℚ × ℚ) (off : ℚ) : ℚ × ℚ :=
  (clickPos.1 + off, clickPos.2 + off)

/-- End of the slash segment: click position - (offset, offset). -/
def slashEnd (clickPos : ℚ × ℚ) (off : ℚ) : ℚ × ℚ :=
  (clickPos.1 - off, clickPos.2 - off)

/-- The slash-mode hit test: distance from the dandelion to the slash
segment at most its collision radius, compared squared. -/
def slashHit (clickPos : ℚ × ℚ) (off : ℚ) (d : Dand) : Bool :=
  segDistSq d.pos (slashStart clickPos off) (slashEnd clickPos off) ≤
    d.size.collision_radius ^ 2

/-- enemies.rs process_slash_attack: damage every dandelion whose circle
meets the slash segment. -/
def process_slash_attack (l : List Dand) (clickPos : ℚ × ℚ) (off : ℚ) : List ℕ :=
  (l.filter (slashHit clickPos off)).map Dand.id

/-- The dispatch in handle_dandelion_clicks: slash mode or click mode,
per click, by the slash_mode flag. -/
def resolveHit (slashMode : Bool) (l : List Dand) (clickPos : ℚ × ℚ) (off : ℚ) : List ℕ :=
  if slashMode then process_slash_attack l clickPos off
  else process_dandelion_hit l clickPos

/-! ## Rabbit target selection (powerups.rs)

The RabbitTargeting registry (a dandelion -> rabbit map) is a list of
(dandelion id, rabbit id) entries.  The random index of the fallback is the
universally quantified parameter k, reduced modulo the candidate count, the
image of gen_range(0..len). -/

/-- RabbitTargeting::is_targeted. -/
def isTargeted (reg : List (ℕ × ℕ)) (e : ℕ) : Bool :=
  reg.any (fun p => p.1 = e)

/-- RabbitTargeting::get_targeting_rabbit. -/
def getTargetingRabbit (reg : List (ℕ × ℕ)) (e : ℕ) : Option ℕ :=
  (reg.find? (fun p => p.1 = e)).map Prod.snd

/-- The skip condition of the first pass of find_best_dandelion_target: the
dandelion is targeted, and by a rabbit other than this one. -/
def claimedByOther (reg : List (ℕ × ℕ)) (rabbit e : ℕ) : Bool :=
  isTargeted reg e && getTargetingRabbit reg e != some rabbit

/-- powerups.rs get_dandelion_size_bonus. -/
def get_dandelion_size_bonus : DandelionSize → ℚ
  | DandelionSize.Tiny => 1.0
  | DandelionSize.Small => 1.2
  | DandelionSize.Medium => 1.5
  | DandelionSize.Large => 2.0
  | DandelionSize.Huge => 3.0

/-- The targeting score: (1000 / (distance + 1)) * size_bonus. -/
noncomputable def targetScore (rpos : ℚ × ℚ) (d : Dand) : ℝ :=
  (1000 / (vdist (toR rpos) (toR d.pos) + 1)) * (get_dandelion_size_bonus d.size : ℝ)

open Classical in
/-- The first pass of find_best_dandelion_target: iterate the dandelions,
skip those claimed by another rabbit, keep the first strict maximum of the
score.  The f32 NEG_INFINITY sentinel of best_score is modelled by none
(every real score exceeds it). -/
noncomputable def findBestAux (rabbit : ℕ) (reg : List (ℕ × ℕ)) (rpos : ℚ × ℚ) :
    List Dand → Option (ℕ × ℝ) → Option (ℕ × ℝ)
  | [], best => best
  | d :: rest, best =>
      if claimedByOther reg rabbit d.id then
        findBestAux rabbit reg rpos rest best
      else
        match best with
        | none => findBestAux rabbit reg rpos rest (some (d.id, targetScore rpos d))
        | some (b, bs) =>
            if bs < targetScore rpos d then
              findBestAux rabbit reg rpos rest (some (d.id, targetScore rpos d))
            else
              findBestAux rabbit reg rpos rest (some (b, bs))

/-- The candidates of find_fallback_dandelion_target: dandelions within 200
units of the rabbit. -/
def closeDandelions (rpos : ℚ × ℚ) (l : List Dand) : List Dand :=
  l.filter (fun d => distSq rpos d.pos ≤ 200 ^ 2)

/-- powerups.rs find_fallback_dandelion_target: a random close dandelion,
none when no dandelion is within 200 units.  The registry is not consulted. -/
def find_fallback_dandelion_target (rpos : ℚ × ℚ) (l : List Dand) (k : ℕ) : Option ℕ :=
  let close := closeDandelions rpos l
  if h : 0 < close.length then
    some (close.get ⟨k % close.length, Nat.mod_lt _ h⟩).id
  else none

/-- powerups.rs find_best_dandelion_target: the first pass, with the fallback
when it selects nothing. -/
noncomputable def find_best_dandelion_target (rabbit : ℕ) (rpos : ℚ × ℚ)
    (reg : List (ℕ × ℕ)) (l : List Dand) (k : ℕ) : Option ℕ :=
  match findBestAux rabbit reg rpos l none with
  | some (e, _) => some e
  | none => find_fallback_dandelion_target rpos l k

/-! ## Score/combo ledger lemmas and the claims C6 and C9 -/

/-- The ledger state after n kills from a fresh game. -/
noncomputable def killsAfter : ℕ → GameData
  | 0 => GameData.new
  | n + 1 => (killsAfter n).add_dandelion_kill

theorem comboDuration_mono {c1 c2 : ℕ} (h1 : 1 ≤ c1) (h12 : c1 ≤ c2) :
    comboDuration c1 ≤ comboDuration c2 := by
  unfold comboDuration
  refine min_le_min (add_le_add_left ?_ _) le_rfl
  have hlog : Real.log (c1 : ℝ) ≤ Real.log (c2 : ℝ) := by
    rw [Real.log_le_log_iff (by exact_mod_cast h1) (by exact_mod_cast lt_of_lt_of_le h1 h12)]
    exact_mod_cast h12
  nlinarith [hlog]

theorem add_kill_combo_of_lt {g : GameData} (h : g.combo < u32Max) :
    (g.add_dandelion_kill).combo = g.combo + 1 := by
  simp only [GameData.add_dandelion_kill, satAdd]
  omega

theorem add_kill_score_exact {g : GameData} (hc : g.combo < u32Max)
    (hs : g.score + DANDELION_POINTS * (g.combo + 1) ≤ u32Max) :
    (g.add_dandelion_kill).score = g.score + DANDELION_POINTS * (g.combo + 1) := by
  simp only [GameData.add_dandelion_kill, satAdd, satMul, DANDELION_POINTS] at *
  omega

theorem add_kill_duration (g : GameData) :
    (g.add_dandelion_kill).comboTimerDuration =
      comboDuration ((g.add_dandelion_kill).combo) := by
  simp [GameData.add_dandelion_kill]

/-- Claim C6 (counterexample to the claim as stated): at a saturated combo
counter (u32::MAX) a registered kill does NOT increment the combo by 1; the
saturating add keeps it at u32::MAX. -/
theorem add_kill_not_always_increment :
    (GameData.add_dandelion_kill
        { score := 0, combo := u32Max, comboTimerDuration := 0 }).combo ≠
      ({ score := 0, combo := u32Max, comboTimerDuration := 0 } : GameData).combo + 1 := by
  simp only [GameData.add_dandelion_kill, satAdd, u32Max]
  omega

/-- Claim C6 (amended): whenever the combo counter is below the u32
saturation bound, a registered kill increments combo by exactly 1; when
additionally the score addition does not overflow, the score grows by exactly
DANDELION_POINTS * new combo = 10 * combo; the combo timer is reset to
duration min(INITIAL + (ln combo + 1) * 0.8, MAX) for the new combo; 5 rapid
kills from a fresh game produce score increments 10, 20, 30, 40, 50; and the
combo-timer duration is monotonically non-decreasing in the combo value. -/
theorem add_dandelion_kill_spec :
    (∀ g : GameData, g.combo < u32Max →
      (g.add_dandelion_kill).combo = g.combo + 1) ∧
    (∀ g : GameData, g.combo < u32Max →
      g.score + DANDELION_POINTS * (g.combo + 1) ≤ u32Max →
      (g.add_dandelion_kill).score = g.score + DANDELION_POINTS * (g.combo + 1)) ∧
    (∀ g : GameData,
      (g.add_dandelion_kill).comboTimerDuration =
        min (INITIAL_COMBO_TIME +
          (Real.log (((g.add_dandelion_kill).combo : ℕ) : ℝ) + 1) * 0.8)
          MAX_COMBO_TIME) ∧
    ((killsAfter 1).score = (killsAfter 0).score + 10 ∧
     (killsAfter 2).score = (killsAfter 1).score + 20 ∧
     (killsAfter 3).score = (killsAfter 2).score + 30 ∧
     (killsAfter 4).score = (killsAfter 3).score + 40 ∧
     (killsAfter 5).score = (killsAfter 4).score + 50) ∧
    (∀ c1 c2 : ℕ, 1 ≤ c1 → c1 ≤ c2 → comboDuration c1 ≤ comboDuration c2) := by
  refine ⟨fun g h => add_kill_combo_of_lt h,
    fun g hc hs => add_kill_score_exact hc hs,
    fun g => add_kill_duration g,
    ?_, fun c1 c2 h1 h12 => comboDuration_mono h1 h12⟩
  norm_num [killsAfter, GameData.new, GameData.add_dandelion_kill,
    satAdd, satMul, DANDELION_POINTS, u32Max]

/-- Witness for C6: the amended claim applied at concrete inputs (a ledger
with combo 3 and score 60, and combo values 1 <= 2). -/
theorem add_dandelion_kill_spec_witness :
    (({ score := 60, combo := 3, comboTimerDuration := 0 } : GameData).combo < u32Max ∧
      (GameData.add_dandelion_kill
        { score := 60, combo := 3, comboTimerDuration := 0 }).combo = 3 + 1) ∧
    (GameData.add_dandelion_kill
        { score := 60, combo := 3, comboTimerDuration := 0 }).score = 60 + 10 * (3 + 1) ∧
    comboDuration 1 ≤ comboDuration 2 := by
  obtain ⟨h1, h2, -, -, h5⟩ := add_dandelion_kill_spec
  refine ⟨⟨by norm_num [u32Max], h1 _ (by norm_num [u32Max])⟩, ?_, h5 1 2 le_rfl (by norm_num)⟩
  have := h2 { score := 60, combo := 3, comboTimerDuration := 0 }
    (by norm_num [u32Max]) (by norm_num [u32Max, DANDELION_POINTS])
  simpa [DANDELION_POINTS] using this

/-- Claim C9: add_dandelion_kill uses saturating u32 arithmetic: from any
in-range ledger state, the new combo and score are at least their old values
and never exceed u32::MAX (no wraparound). -/
theorem add_dandelion_kill_saturating (g : GameData)
    (hc : g.combo ≤ u32Max) (hs : g.score ≤ u32Max) :
    g.combo ≤ (g.add_dandelion_kill).combo ∧
    (g.add_dandelion_kill).combo ≤ u32Max ∧
    g.score ≤ (g.add_dandelion_kill).score ∧
    (g.add_dandelion_kill).score ≤ u32Max := by
  simp only [GameData.add_dandelion_kill, satAdd, satMul]
  omega

/-- Witness for C9: the saturation bounds at a concrete ledger state that is
already at u32::MAX. -/
theorem add_dandelion_kill_saturating_witness :
    ({ score := u32Max, combo := u32Max, comboTimerDuration := 0 } : GameData).combo ≤ u32Max ∧
    (GameData.add_dandelion_kill
      { score := u32Max, combo := u32Max, comboTimerDuration := 0 }).score ≤ u32Max := by
  refine ⟨le_rfl, ?_⟩
  exact (add_dandelion_kill_saturating
    { score := u32Max, combo := u32Max, comboTimerDuration := 0 } le_rfl le_rfl).2.2.2

/-! ## Fire-system lemmas and the claims C2 and C3 -/

theorem firstHitGen_append_of_none {f1 : List Fire} (f2 : List Fire) {p : ℚ × ℚ}
    (h : firstHitGen f1 p = none) :
    firstHitGen (f1 ++ f2) p = firstHitGen f2 p := by
  unfold firstHitGen at *
  rw [List.find?_append]
  rcases h1 : f1.find? (fun f => fireHits f p) with _ | f
  · simp [Option.or]
  · simp [h1] at h

theorem firstHitGen_ne_none_of_hits {fires : List Fire} {p : ℚ × ℚ} {f : Fire}
    (hf : f ∈ fires) (hh : fireHits f p = true) :
    firstHitGen fires p ≠ none := by
  unfold firstHitGen
  intro h
  rcases hfind : fires.find? (fun f => fireHits f p) with _ | g
  · exact (List.find?_eq_none.1 hfind f hf) hh
  · rw [hfind] at h
    simp at h

theorem pending_mem_iff (fires : List Fire) (dands : List Dand) (k : Dand × ℕ)
    (hk : k ∈ fireKills fires dands) :
    ((⟨k.1.pos, FIRE_RADIUS, k.2 + 1⟩ : Fire) ∈ firePending fires dands) ↔
      k.2 < MAX_GENERATION := by
  constructor
  · intro hmem
    simp only [firePending, List.mem_filterMap] at hmem
    obtain ⟨a, -, ha⟩ := hmem
    by_cases hg : a.2 < MAX_GENERATION
    · simp only [if_pos hg, Option.some.injEq, Fire.mk.injEq] at ha
      omega
    · simp [if_neg hg] at ha
  · intro hg
    simp only [firePending, List.mem_filterMap]
    exact ⟨k, hk, by simp [hg]⟩

theorem pending_length (fires : List Fire) (dands : List Dand) :
    (firePending fires dands).length =
      ((fireKills fires dands).filter (fun k => decide (k.2 < MAX_GENERATION))).length := by
  unfold firePending
  induction fireKills fires dands with
  | nil => rfl
  | cons k ks ih =>
      by_cases hg : k.2 < MAX_GENERATION <;>
        simp [List.filterMap_cons, List.filter_cons, hg, ih]

theorem fireTick_gen_le (s : GState)
    (h : ∀ f ∈ s.fires, f.generation ≤ MAX_GENERATION) :
    ∀ f ∈ (fireTick s).fires, f.generation ≤ MAX_GENERATION := by
  intro f hf
  simp only [fireTick] at hf
  rcases List.mem_append.1 hf with h1 | h2
  · exact h f h1
  · simp only [firePending, List.mem_filterMap] at h2
    obtain ⟨k, -, hk⟩ := h2
    by_cases hg : k.2 < MAX_GENERATION
    · simp only [if_pos hg, Option.some.injEq] at hk
      subst hk
      show k.2 + 1 ≤ MAX_GENERATION
      simp only [MAX_GENERATION] at hg ⊢
      omega
    · simp [if_neg hg] at hk

/-- One fire of the given generation covering a single Tiny dandelion with
one health (the scenario-D setup of the spec). -/
def fireScenario (g : ℕ) : GState :=
  { dands := [⟨0, (0, 0), DandelionSize.Tiny, 1, false, false⟩],
    fires := [⟨(0, 0), FIRE_RADIUS, g⟩],
    area := DandelionSize.Tiny.visualAreaCoeff,
    nextId := 1 }

/-- Claim C3: a chain ignition (at the kill position, with generation + 1) is
queued for a fire-killed dandelion iff the killing generation is strictly
below MAX_GENERATION; exactly one pending ignition exists per such kill; a
generation-4 fire killing one dandelion queues exactly one generation-5 chain
fire while a generation-5 fire queues none; and if every live fire is at
generation at most MAX_GENERATION then so is every fire after the tick, so no
chain exceeds MAX_GENERATION in depth. -/
theorem fire_generation_cap :
    (∀ (fires : List Fire) (dands : List Dand) (k : Dand × ℕ),
      k ∈ fireKills fires dands →
      (((⟨k.1.pos, FIRE_RADIUS, k.2 + 1⟩ : Fire) ∈ firePending fires dands) ↔
        k.2 < MAX_GENERATION)) ∧
    (∀ (fires : List Fire) (dands : List Dand),
      (firePending fires dands).length =
        ((fireKills fires dands).filter (fun k => decide (k.2 < MAX_GENERATION))).length) ∧
    (firePending (fireScenario 4).fires (fireScenario 4).dands =
        [⟨(0, 0), FIRE_RADIUS, 5⟩] ∧
      firePending (fireScenario 5).fires (fireScenario 5).dands = []) ∧
    (∀ s : GState, (∀ f ∈ s.fires, f.generation ≤ MAX_GENERATION) →
      ∀ f ∈ (fireTick s).fires, f.generation ≤ MAX_GENERATION) := by
  refine ⟨pending_mem_iff, pending_length, ⟨?_, ?_⟩, fireTick_gen_le⟩ <;>
    norm_num [fireScenario, firePending, fireKills, firstHitGen, fireHits,
      distSq, FIRE_RADIUS, MAX_GENERATION, List.find?, List.filterMap_cons]

/-- Witness for C3: the queue-iff fact at the concrete generation-4 kill of
fireScenario, and the generation cap at that concrete state. -/
theorem fire_generation_cap_witness :
    ((⟨0, (0, 0), DandelionSize.Tiny, 1, false, false⟩, 4) ∈
        fireKills (fireScenario 4).fires (fireScenario 4).dands ∧
      (((⟨(0, 0), FIRE_RADIUS, 4 + 1⟩ : Fire) ∈
          firePending (fireScenario 4).fires (fireScenario 4).dands) ↔
        4 < MAX_GENERATION)) ∧
    (∀ f ∈ (fireTick (fireScenario 4)).fires, f.generation ≤ MAX_GENERATION) := by
  obtain ⟨h1, -, -, h4⟩ := fire_generation_cap
  have hk : (⟨0, (0, 0), DandelionSize.Tiny, 1, false, false⟩, 4) ∈
      fireKills (fireScenario 4).fires (fireScenario 4).dands := by
    norm_num [fireScenario, fireKills, firstHitGen, fireHits, distSq,
      FIRE_RADIUS, List.find?, List.filterMap_cons]
  refine ⟨⟨hk, h1 _ _ _ hk⟩, h4 _ ?_⟩
  intro f hf
  norm_num [fireScenario] at hf
  simp [hf, MAX_GENERATION]

/-- Claim C2 (counterexample to the claim as stated): the chain ignition
produced by a kill is already among the live fires at the end of the very
tick whose kill batch produced it, not on the next tick: with one
generation-0 fire covering one dandelion, the tick registers exactly one kill
and its output fire list already contains the generation-1 chain fire. -/
theorem chain_fire_spawned_same_tick :
    (fireKills (fireScenario 0).fires (fireScenario 0).dands).length = 1 ∧
    (⟨(0, 0), FIRE_RADIUS, 1⟩ : Fire) ∈ (fireTick (fireScenario 0)).fires := by
  constructor <;>
    norm_num [fireScenario, fireTick, firePending, fireKills, firstHitGen,
      fireHits, distSq, FIRE_RADIUS, MAX_GENERATION, List.find?,
      List.filterMap_cons]

/-- Claim C2 (amended): the chain ignitions queued by the per-tick kill batch
are spawned at the end of the same tick, immediately after the batch; kill
detection for a tick reads only the fires that were live at the start of that
tick, so a dandelion out of range of every such fire but in range of a queued
chain ignition survives the tick that queued it and is destroyed only on the
following tick. -/
theorem chain_fire_next_tick_effect :
    (∀ s : GState, (fireTick s).fires = s.fires ++ firePending s.fires s.dands) ∧
    (∀ s : GState, (fireTick s).dands =
      s.dands.filter (fun d => firstHitGen s.fires d.pos = none)) ∧
    (∀ (s : GState) (d : Dand), d ∈ s.dands →
      firstHitGen s.fires d.pos = none →
      (∃ p ∈ firePending s.fires s.dands, fireHits p d.pos = true) →
      d ∈ (fireTick s).dands ∧ d ∉ (fireTick (fireTick s)).dands) := by
  refine ⟨fun s => rfl, fun s => rfl, ?_⟩
  intro s d hd hnone ⟨p, hp, hph⟩
  have hmem : d ∈ (fireTick s).dands := by
    simp only [fireTick, List.mem_filter]
    exact ⟨hd, by simp [hnone]⟩
  refine ⟨hmem, ?_⟩
  intro hcontra
  simp only [fireTick, List.mem_filter] at hcontra
  have h2 : firstHitGen (fireTick s).fires d.pos ≠ none := by
    show firstHitGen (s.fires ++ firePending s.fires s.dands) d.pos ≠ none
    rw [firstHitGen_append_of_none _ hnone]
    exact firstHitGen_ne_none_of_hits hp hph
  have := hcontra.2
  simp only [decide_eq_true_eq] at this
  exact h2 this

/-- A generation-0 fire, one dandelion inside its radius (id 0) and one
dandelion (id 1) outside it but inside the radius of the chain ignition the
first kill queues. -/
def chainScenario : GState :=
  { dands := [⟨0, (0, 60), DandelionSize.Tiny, 1, false, false⟩,
              ⟨1, (0, 150), DandelionSize.Tiny, 1, false, false⟩],
    fires := [⟨(0, 0), FIRE_RADIUS, 0⟩],
    area := 2 * DandelionSize.Tiny.visualAreaCoeff,
    nextId := 2 }

/-- Witness for C2 (amended): in chainScenario, the far dandelion is missed
by this tick and killed by the next one. -/
theorem chain_fire_next_tick_effect_witness :
    (⟨1, (0, 150), DandelionSize.Tiny, 1, false, false⟩ : Dand) ∈ chainScenario.dands ∧
    (⟨1, (0, 150), DandelionSize.Tiny, 1, false, false⟩ : Dand) ∈ (fireTick chainScenario).dands ∧
    (⟨1, (0, 150), DandelionSize.Tiny, 1, false, false⟩ : Dand) ∉
      (fireTick (fireTick chainScenario)).dands := by
  have hd : (⟨1, (0, 150), DandelionSize.Tiny, 1, false, false⟩ : Dand) ∈ chainScenario.dands := by
    simp [chainScenario]
  have hnone : firstHitGen chainScenario.fires ((0 : ℚ), (150 : ℚ)) = none := by
    norm_num [chainScenario, firstHitGen, fireHits, distSq, FIRE_RADIUS, List.find?]
  have hpend : ∃ p ∈ firePending chainScenario.fires chainScenario.dands,
      fireHits p ((0 : ℚ), (150 : ℚ)) = true := by
    refine ⟨⟨(0, 60), FIRE_RADIUS, 1⟩, ?_, ?_⟩ <;>
      norm_num [chainScenario, firePending, fireKills, firstHitGen, fireHits,
        distSq, FIRE_RADIUS, MAX_GENERATION, List.find?, List.filterMap_cons]
  have := chain_fire_next_tick_effect.2.2 chainScenario
    ⟨1, (0, 150), DandelionSize.Tiny, 1, false, false⟩ hd hnone hpend
  exact ⟨hd, this.1, this.2⟩

/-! ## Point-to-segment distance: claim C10 -/

/-- For a positive quadratic A u^2 - 2 B u, the clamped vertex position
min(max(B/A, 0), 1) minimises the value over u in [0, 1]. -/
theorem clamp_minimises (A B : ℝ) (hA : 0 < A) (t : ℝ) (h0 : 0 ≤ t) (h1 : t ≤ 1) :
    A * min (max (B / A) 0) 1 ^ 2 - 2 * B * min (max (B / A) 0) 1 ≤
      A * t ^ 2 - 2 * B * t := by
  rcases le_or_lt B 0 with hB | hB
  · have hmax : max (B / A) 0 = 0 :=
      max_eq_right (div_nonpos_iff.2 (Or.inr ⟨hB, hA.le⟩))
    rw [hmax, min_eq_left zero_le_one]
    nlinarith
  · rcases le_or_lt A B with hAB | hAB
    · have hmax : max (B / A) 0 = B / A :=
        max_eq_left (le_of_lt (div_pos hB hA))
      have hone : (1 : ℝ) ≤ B / A := (one_le_div hA).2 hAB
      rw [hmax, min_eq_right hone]
      have h3 : 0 ≤ (1 - t) * (2 * B - A * (1 + t)) :=
        mul_nonneg (by linarith) (by nlinarith)
      nlinarith [h3]
    · have hmax : max (B / A) 0 = B / A :=
        max_eq_left (le_of_lt (div_pos hB hA))
      have hle : B / A ≤ 1 := (div_le_one hA).2 hAB.le
      rw [hmax, min_eq_left hle]
      have key : A * t ^ 2 - 2 * B * t - (A * (B / A) ^ 2 - 2 * B * (B / A)) =
          (A * t - B) ^ 2 / A := by
        field_simp
        ring
      have hnn : 0 ≤ (A * t - B) ^ 2 / A := div_nonneg (sq_nonneg _) hA.le
      linarith

/-- The squared distance to a point of the parametrised line is the quadratic
A u^2 - 2 B u + C of the projection computation. -/
theorem param_sq_expand (p a : ℝ × ℝ) (v1 v2 u : ℝ) :
    (p.1 - (a.1 + u * v1)) ^ 2 + (p.2 - (a.2 + u * v2)) ^ 2 =
      (v1 ^ 2 + v2 ^ 2) * u ^ 2 -
        2 * ((p.1 - a.1) * v1 + (p.2 - a.2) * v2) * u +
        ((p.1 - a.1) ^ 2 + (p.2 - a.2) ^ 2) := by
  ring

/-- Claim C10: distance_point_to_line_segment is defined on every input: on a
degenerate segment (start = end, squared length zero) it returns the
point-to-start distance, and in general its value is the least distance from
the point to any point of the segment (so for a non-degenerate segment, the
clamping of the projection parameter to [0, 1] yields the exact
closest-point distance). -/
theorem distance_point_to_line_segment_correct :
    (∀ p a : ℝ × ℝ, distance_point_to_line_segment p a a = vdist p a) ∧
    (∀ p a b : ℝ × ℝ,
      IsLeast
        {y : ℝ | ∃ t : ℝ, 0 ≤ t ∧ t ≤ 1 ∧
          y = vdist p (a.1 + t * (b.1 - a.1), a.2 + t * (b.2 - a.2))}
        (distance_point_to_line_segment p a b)) := by
  constructor
  · intro p a
    unfold distance_point_to_line_segment
    norm_num
  · intro p a b
    unfold distance_point_to_line_segment
    by_cases hz : (b.1 - a.1) ^ 2 + (b.2 - a.2) ^ 2 = 0
    · rw [if_pos hz]
      have h1 : b.1 - a.1 = 0 := by nlinarith [sq_nonneg (b.1 - a.1), sq_nonneg (b.2 - a.2)]
      have h2 : b.2 - a.2 = 0 := by nlinarith [sq_nonneg (b.1 - a.1), sq_nonneg (b.2 - a.2)]
      constructor
      · exact ⟨0, le_rfl, zero_le_one, by simp [h1, h2]⟩
      · rintro y ⟨t, -, -, rfl⟩
        simp [h1, h2]
    · rw [if_neg hz]
      have hA : 0 < (b.1 - a.1) ^ 2 + (b.2 - a.2) ^ 2 :=
        lt_of_le_of_ne (by positivity) (Ne.symm hz)
      set B := (p.1 - a.1) * (b.1 - a.1) + (p.2 - a.2) * (b.2 - a.2) with hB
      set tc := min (max (B / ((b.1 - a.1) ^ 2 + (b.2 - a.2) ^ 2)) 0) 1 with htc
      have htc0 : 0 ≤ tc := le_min (le_max_right _ _) zero_le_one
      have htc1 : tc ≤ 1 := min_le_right _ _
      constructor
      · exact ⟨tc, htc0, htc1, rfl⟩
      · rintro y ⟨t, ht0, ht1, rfl⟩
        simp only [vdist]
        apply Real.sqrt_le_sqrt
        rw [param_sq_expand p a (b.1 - a.1) (b.2 - a.2) tc,
          param_sq_expand p a (b.1 - a.1) (b.2 - a.2) t]
        have hmin := clamp_minimises ((b.1 - a.1) ^ 2 + (b.2 - a.2) ^ 2) B hA t ht0 ht1
        rw [← htc] at hmin
        simp only [← hB]
        linarith

/-- Witness for C10 at concrete inputs: degenerate segment behaviour at
((3,4), (0,0)) and the lower-bound half of the least property for the
segment (0,0)-(1,1). -/
theorem distance_point_to_line_segment_correct_witness :
    distance_point_to_line_segment (3, 4) (0, 0) (0, 0) = vdist (3, 4) (0, 0) ∧
    distance_point_to_line_segment (3, 4) (0, 0) (1, 1) ∈
      lowerBounds
        {y : ℝ | ∃ t : ℝ, 0 ≤ t ∧ t ≤ 1 ∧
          y = vdist (3, 4) ((0 : ℝ) + t * (1 - 0), (0 : ℝ) + t * (1 - 0))} :=
  ⟨distance_point_to_line_segment_correct.1 (3, 4) (0, 0),
   (distance_point_to_line_segment_correct.2 (3, 4) (0, 0) (1, 1)).2⟩

/-! ## Bridging the rational hit tests to the real distances, and claim C5 -/

theorem collision_radius_pos (s : DandelionSize) : 0 < s.collision_radius := by
  cases s <;> norm_num [DandelionSize.collision_radius]

theorem le_iff_sq_le_sq {x r : ℝ} (hx : 0 ≤ x) (hr : 0 ≤ r) :
    x ≤ r ↔ x ^ 2 ≤ r ^ 2 := by
  constructor
  · intro h
    have := mul_self_le_mul_self hx h
    simpa [pow_two] using this
  · intro h
    exact (abs_le_of_sq_le_sq' h hr).2

theorem dpls_nonneg (p a b : ℝ × ℝ) :
    0 ≤ distance_point_to_line_segment p a b := by
  unfold distance_point_to_line_segment vdist
  by_cases hz : (b.1 - a.1) ^ 2 + (b.2 - a.2) ^ 2 = 0 <;>
    simp [hz, Real.sqrt_nonneg]

/-- The square of the real segment distance at rational inputs is the cast of
the rational segDistSq: the two functions take the same branch and compute
the same clamped projection parameter. -/
theorem dpls_sq_eq (p a b : ℚ × ℚ) :
    distance_point_to_line_segment (toR p) (toR a) (toR b) ^ 2 =
      ((segDistSq p a b : ℚ) : ℝ) := by
  unfold distance_point_to_line_segment segDistSq toR
  have hcond : ((((b.1 : ℝ)) - (a.1 : ℝ)) ^ 2 + (((b.2 : ℝ)) - (a.2 : ℝ)) ^ 2 = 0) ↔
      ((b.1 - a.1) ^ 2 + (b.2 - a.2) ^ 2 = (0 : ℚ)) := by
    constructor
    · intro h
      exact_mod_cast (by push_cast at h ⊢; linarith [h] : (((b.1 - a.1) ^ 2 + (b.2 - a.2) ^ 2 : ℚ) : ℝ) = 0)
    · intro h
      have : (((b.1 - a.1) ^ 2 + (b.2 - a.2) ^ 2 : ℚ) : ℝ) = 0 := by exact_mod_cast h
      push_cast at this
      linarith [this]
  by_cases hq : ((b.1 - a.1) ^ 2 + (b.2 - a.2) ^ 2 = (0 : ℚ))
  · rw [if_pos (hcond.2 hq), if_pos hq]
    exact vdist_sq_eq p a
  · rw [if_neg (fun h => hq (hcond.1 h)), if_neg hq]
    have ht : min (max ((((p.1 : ℝ) - (a.1 : ℝ)) * ((b.1 : ℝ) - (a.1 : ℝ)) +
          ((p.2 : ℝ) - (a.2 : ℝ)) * ((b.2 : ℝ) - (a.2 : ℝ))) /
          (((b.1 : ℝ) - (a.1 : ℝ)) ^ 2 + ((b.2 : ℝ) - (a.2 : ℝ)) ^ 2)) 0) 1 =
        ((min (max (((p.1 - a.1) * (b.1 - a.1) + (p.2 - a.2) * (b.2 - a.2)) /
          ((b.1 - a.1) ^ 2 + (b.2 - a.2) ^ 2)) 0) 1 : ℚ) : ℝ) := by
      push_cast
      ring_nf
    rw [ht]
    have := vdist_sq_eq p
      (a.1 + (min (max (((p.1 - a.1) * (b.1 - a.1) + (p.2 - a.2) * (b.2 - a.2)) /
          ((b.1 - a.1) ^ 2 + (b.2 - a.2) ^ 2)) 0) 1) * (b.1 - a.1),
       a.2 + (min (max (((p.1 - a.1) * (b.1 - a.1) + (p.2 - a.2) * (b.2 - a.2)) /
          ((b.1 - a.1) ^ 2 + (b.2 - a.2) ^ 2)) 0) 1) * (b.2 - a.2))
    unfold toR at this
    push_cast at this ⊢
    convert this using 3

/-- The rational slash hit test agrees with the comparison the source makes:
real closest-point-to-segment distance at most the collision radius. -/
theorem slashHit_iff_real (clickPos : ℚ × ℚ) (off : ℚ) (d : Dand) :
    slashHit clickPos off d = true ↔
      distance_point_to_line_segment (toR d.pos) (toR (slashStart clickPos off))
          (toR (slashEnd clickPos off)) ≤ (d.size.collision_radius : ℝ) := by
  unfold slashHit
  rw [le_iff_sq_le_sq (dpls_nonneg _ _ _)
      (by exact_mod_cast (collision_radius_pos d.size).le),
    dpls_sq_eq]
  rw [show ((d.size.collision_radius : ℚ) : ℝ) ^ 2 =
      ((d.size.collision_radius ^ 2 : ℚ) : ℝ) by push_cast; ring]
  rw [Rat.cast_le]
  simp

/-- The rational click hit test agrees with the comparison the source makes:
real distance from the click point at most the collision radius. -/
theorem clickHit_iff_real (clickPos : ℚ × ℚ) (d : Dand) :
    clickHit clickPos d = true ↔
      vdist (toR clickPos) (toR d.pos) ≤ (d.size.collision_radius : ℝ) := by
  unfold clickHit
  rw [vdist_le_iff_distSq_le _ _ _ (collision_radius_pos d.size).le]
  simp

/-- find? characterised by a split of the list: the found element satisfies
the predicate and everything before it does not. -/
theorem find?_eq_some_split {α : Type} (p : α → Bool) (l : List α) (a : α) :
    l.find? p = some a ↔
      p a = true ∧ ∃ pre post, l = pre ++ a :: post ∧ ∀ x ∈ pre, p x = false := by
  rw [List.find?_eq_some]
  constructor
  · rintro ⟨hpa, pre, post, rfl, hpre⟩
    exact ⟨hpa, pre, post, rfl, fun x hx => by simpa using hpre x hx⟩
  · rintro ⟨hpa, pre, post, rfl, hpre⟩
    exact ⟨hpa, pre, post, rfl, fun x hx => by simpa using hpre x hx⟩

/-- Claim C5: in click mode (slash_mode = false) a click damages at most one
dandelion, namely exactly the first in iteration order whose collision circle
contains the click point; in slash mode (slash_mode = true) a click damages
exactly the dandelions whose closest-point distance to the diagonal slash
segment through the click point is at most their collision radius; the two
modes are dispatched exclusively on the slash_mode flag of the same click. -/
theorem resolve_hit_spec :
    (∀ (l : List Dand) (clickPos : ℚ × ℚ) (off : ℚ),
      (resolveHit false l clickPos off).length ≤ 1) ∧
    (∀ (l : List Dand) (clickPos : ℚ × ℚ) (off : ℚ) (e : ℕ),
      resolveHit false l clickPos off = [e] ↔
        ∃ d pre post, l = pre ++ d :: post ∧ d.id = e ∧
          vdist (toR clickPos) (toR d.pos) ≤ (d.size.collision_radius : ℝ) ∧
          ∀ x ∈ pre,
            ¬ vdist (toR clickPos) (toR x.pos) ≤ (x.size.collision_radius : ℝ)) ∧
    (∀ (l : List Dand) (clickPos : ℚ × ℚ) (off : ℚ) (e : ℕ),
      e ∈ resolveHit true l clickPos off ↔
        ∃ d ∈ l, d.id = e ∧
          distance_point_to_line_segment (toR d.pos) (toR (slashStart clickPos off))
            (toR (slashEnd clickPos off)) ≤ (d.size.collision_radius : ℝ)) := by
  refine ⟨?_, ?_, ?_⟩
  · intro l clickPos off
    have hre : resolveHit false l clickPos off = process_dandelion_hit l clickPos := rfl
    rw [hre]
    simp only [process_dandelion_hit]
    rcases l.find? (clickHit clickPos) with _ | d <;> simp
  · intro l clickPos off e
    have hre : resolveHit false l clickPos off = process_dandelion_hit l clickPos := rfl
    rw [hre]
    simp only [process_dandelion_hit]
    rcases hf : l.find? (clickHit clickPos) with _ | d
    · simp only [List.find?_eq_none] at hf
      constructor
      · intro h
        simp at h
      · rintro ⟨d, pre, post, rfl, -, hd, -⟩
        exact absurd ((clickHit_iff_real clickPos d).2 hd)
          (by simpa using hf d (by simp))
    · rw [find?_eq_some_split] at hf
      obtain ⟨hpd, pre, post, rfl, hpre⟩ := hf
      constructor
      · intro h
        simp only [List.cons.injEq, and_true] at h
        refine ⟨d, pre, post, rfl, h, (clickHit_iff_real clickPos d).1 hpd, ?_⟩
        intro x hx hcontra
        have : clickHit clickPos x = true := (clickHit_iff_real clickPos x).2 hcontra
        rw [hpre x hx] at this
        exact Bool.false_ne_true this
      · rintro ⟨d2, pre2, post2, heq, hid, hd2, hpre2⟩
        have hfind : (pre2 ++ d2 :: post2).find? (clickHit clickPos) = some d2 := by
          rw [find?_eq_some_split]
          refine ⟨(clickHit_iff_real clickPos d2).2 hd2, pre2, post2, rfl, ?_⟩
          intro x hx
          rcases hb : clickHit clickPos x with _ | _
          · rfl
          · exact absurd ((clickHit_iff_real clickPos x).1 hb) (hpre2 x hx)
        have hfind2 : (pre ++ d :: post).find? (clickHit clickPos) = some d := by
          rw [find?_eq_some_split]
          exact ⟨hpd, pre, post, rfl, hpre⟩
        rw [← heq, hfind2] at hfind
        simp only [Option.some.injEq] at hfind
        rw [hfind]
        simp [hid]
  · intro l clickPos off e
    have hre : resolveHit true l clickPos off = process_slash_attack l clickPos off := rfl
    rw [hre]
    simp only [process_slash_attack, List.mem_map, List.mem_filter]
    constructor
    · rintro ⟨d, ⟨hdl, hhit⟩, rfl⟩
      exact ⟨d, hdl, rfl, (slashHit_iff_real clickPos off d).1 hhit⟩
    · rintro ⟨d, hdl, rfl, hdist⟩
      exact ⟨d, ⟨hdl, (slashHit_iff_real clickPos off d).2 hdist⟩, rfl⟩

/-- Witness for C5: a dandelion exactly at the click point is the unique
click-mode hit, and is hit in slash mode as well, at concrete inputs. -/
theorem resolve_hit_spec_witness :
    resolveHit false [⟨7, (0, 0), DandelionSize.Tiny, 1, false, false⟩] (0, 0) 30 = [7] ∧
    (7 : ℕ) ∈ resolveHit true [⟨7, (0, 0), DandelionSize.Tiny, 1, false, false⟩] (0, 0) 30 := by
  have hub : vdist (toR ((0 : ℚ), (0 : ℚ))) (toR ((0 : ℚ), (0 : ℚ))) ≤
      ((DandelionSize.Tiny.collision_radius : ℚ) : ℝ) := by
    rw [vdist_le_iff_distSq_le _ _ _ (collision_radius_pos _).le]
    norm_num [distSq, DandelionSize.collision_radius]
  constructor
  · exact (resolve_hit_spec.2.1 _ _ 30 7).2
      ⟨⟨7, (0, 0), DandelionSize.Tiny, 1, false, false⟩, [], [], rfl, rfl, hub,
        by intro x hx; simp at hx⟩
  · refine (resolve_hit_spec.2.2 _ _ 30 7).2
      ⟨⟨7, (0, 0), DandelionSize.Tiny, 1, false, false⟩, by simp, rfl, ?_⟩
    have := (slashHit_iff_real ((0 : ℚ), (0 : ℚ)) 30
      ⟨7, (0, 0), DandelionSize.Tiny, 1, false, false⟩).1
    apply this
    norm_num [slashHit, segDistSq, slashStart, slashEnd, distSq,
      DandelionSize.collision_radius]

/-! ## Rabbit target selection lemmas and claim C7 -/

theorem findBestAux_eq_none (rabbit : ℕ) (reg : List (ℕ × ℕ)) (rpos : ℚ × ℚ) :
    ∀ (l : List Dand) (best : Option (ℕ × ℝ)),
      findBestAux rabbit reg rpos l best = none ↔
        best = none ∧ ∀ d ∈ l, claimedByOther reg rabbit d.id = true := by
  intro l
  induction l with
  | nil => intro best; simp [findBestAux]
  | cons d rest ih =>
      intro best
      by_cases hcl : claimedByOther reg rabbit d.id = true
      · rw [show findBestAux rabbit reg rpos (d :: rest) best =
            findBestAux rabbit reg rpos rest best by
          simp [findBestAux, hcl]]
        rw [ih best]
        simp only [List.mem_cons]
        constructor
        · rintro ⟨hb, hall⟩
          exact ⟨hb, fun x hx => by
            rcases hx with rfl | hx
            · exact hcl
            · exact hall x hx⟩
        · rintro ⟨hb, hall⟩
          exact ⟨hb, fun x hx => hall x (Or.inr hx)⟩
      · have hstep : ∃ q : ℕ × ℝ, findBestAux rabbit reg rpos (d :: rest) best =
            findBestAux rabbit reg rpos rest (some q) := by
          rcases best with _ | p
          · exact ⟨(d.id, targetScore rpos d), by simp [findBestAux, hcl]⟩
          · by_cases hlt : p.2 < targetScore rpos d
            · refine ⟨(d.id, targetScore rpos d), ?_⟩
              simp only [findBestAux, hcl]
              simp only [Bool.false_eq_true, if_false]
              rw [if_pos hlt]
            · refine ⟨(p.1, p.2), ?_⟩
              simp only [findBestAux, hcl]
              simp only [Bool.false_eq_true, if_false]
              rw [if_neg hlt]
        obtain ⟨q, hq⟩ := hstep
        rw [hq, ih (some q)]
        simp only [List.mem_cons]
        constructor
        · rintro ⟨h, -⟩
          exact absurd h (by simp)
        · rintro ⟨-, hall⟩
          exact absurd (hall d (Or.inl rfl)) (by simp [hcl])

theorem findBestAux_some (rabbit : ℕ) (reg : List (ℕ × ℕ)) (rpos : ℚ × ℚ) :
    ∀ (l : List Dand) (best : Option (ℕ × ℝ)) (e : ℕ) (sc : ℝ),
      findBestAux rabbit reg rpos l best = some (e, sc) →
      ((best = some (e, sc)) ∨
        ∃ d ∈ l, claimedByOther reg rabbit d.id = false ∧ d.id = e ∧
          sc = targetScore rpos d) ∧
      (∀ d ∈ l, claimedByOther reg rabbit d.id = false → targetScore rpos d ≤ sc) ∧
      (∀ p : ℕ × ℝ, best = some p → p.2 ≤ sc) := by
  intro l
  induction l with
  | nil =>
      intro best e sc h
      simp only [findBestAux] at h
      subst h
      refine ⟨Or.inl rfl, ?_, ?_⟩
      · intro d hd
        simp at hd
      · intro p hp
        simp only [Option.some.injEq] at hp
        subst hp
        exact le_rfl
  | cons d rest ih =>
      intro best e sc h
      by_cases hcl : claimedByOther reg rabbit d.id = true
      · rw [show findBestAux rabbit reg rpos (d :: rest) best =
            findBestAux rabbit reg rpos rest best by
          simp [findBestAux, hcl]] at h
        obtain ⟨horig, hmax, hbest⟩ := ih best e sc h
        refine ⟨?_, ?_, hbest⟩
        · rcases horig with h1 | ⟨d2, hd2, hrest⟩
          · exact Or.inl h1
          · exact Or.inr ⟨d2, List.mem_cons_of_mem _ hd2, hrest⟩
        · intro x hx hxf
          rcases List.mem_cons.1 hx with rfl | hx2
          · rw [hcl] at hxf; cases hxf
          · exact hmax x hx2 hxf
      · have hclf : claimedByOther reg rabbit d.id = false := by
          simpa using hcl
        rcases best with _ | p
        · rw [show findBestAux rabbit reg rpos (d :: rest) none =
              findBestAux rabbit reg rpos rest (some (d.id, targetScore rpos d)) by
            simp [findBestAux, hclf]] at h
          obtain ⟨horig, hmax, hbest⟩ := ih _ e sc h
          have hds : targetScore rpos d ≤ sc :=
            hbest (d.id, targetScore rpos d) rfl
          refine ⟨?_, ?_, by simp⟩
          · rcases horig with h1 | ⟨d2, hd2, hrest⟩
            · simp only [Option.some.injEq, Prod.mk.injEq] at h1
              exact Or.inr ⟨d, List.mem_cons_self _ _, hclf, h1.1, h1.2.symm⟩
            · exact Or.inr ⟨d2, List.mem_cons_of_mem _ hd2, hrest⟩
          · intro x hx hxf
            rcases List.mem_cons.1 hx with rfl | hx2
            · exact hds
            · exact hmax x hx2 hxf
        · by_cases hlt : p.2 < targetScore rpos d
          · rw [show findBestAux rabbit reg rpos (d :: rest) (some p) =
                findBestAux rabbit reg rpos rest (some (d.id, targetScore rpos d)) by
              simp only [findBestAux, hclf]
              simp only [Bool.false_eq_true, if_false]
              rw [if_pos hlt]] at h
            obtain ⟨horig, hmax, hbest⟩ := ih _ e sc h
            have hds : targetScore rpos d ≤ sc :=
              hbest (d.id, targetScore rpos d) rfl
            refine ⟨?_, ?_, ?_⟩
            · rcases horig with h1 | ⟨d2, hd2, hrest⟩
              · simp only [Option.some.injEq, Prod.mk.injEq] at h1
                exact Or.inr ⟨d, List.mem_cons_self _ _, hclf, h1.1, h1.2.symm⟩
              · exact Or.inr ⟨d2, List.mem_cons_of_mem _ hd2, hrest⟩
            · intro x hx hxf
              rcases List.mem_cons.1 hx with rfl | hx2
              · exact hds
              · exact hmax x hx2 hxf
            · intro q hq
              simp only [Option.some.injEq] at hq
              subst hq
              exact le_trans hlt.le hds
          · rw [show findBestAux rabbit reg rpos (d :: rest) (some p) =
                findBestAux rabbit reg rpos rest (some (p.1, p.2)) by
              simp only [findBestAux, hclf]
              simp only [Bool.false_eq_true, if_false]
              rw [if_neg hlt]] at h
            obtain ⟨horig, hmax, hbest⟩ := ih _ e sc h
            have hps : p.2 ≤ sc := hbest (p.1, p.2) rfl
            refine ⟨?_, ?_, ?_⟩
            · rcases horig with h1 | ⟨d2, hd2, hrest⟩
              · simp only [Option.some.injEq, Prod.mk.injEq] at h1
                exact Or.inl (by rw [← h1.1, ← h1.2])
              · exact Or.inr ⟨d2, List.mem_cons_of_mem _ hd2, hrest⟩
            · intro x hx hxf
              rcases List.mem_cons.1 hx with rfl | hx2
              · exact le_trans (not_lt.1 hlt) hps
              · exact hmax x hx2 hxf
            · intro q hq
              simp only [Option.some.injEq] at hq
              subst hq
              exact hps

theorem fallback_some_mem (rpos : ℚ × ℚ) (l : List Dand) (k : ℕ) (e : ℕ)
    (h : find_fallback_dandelion_target rpos l k = some e) :
    ∃ d ∈ l, d.id = e ∧ distSq rpos d.pos ≤ 200 ^ 2 := by
  unfold find_fallback_dandelion_target at h
  by_cases hlen : 0 < (closeDandelions rpos l).length
  · rw [dif_pos hlen] at h
    simp only [Option.some.injEq] at h
    set d := (closeDandelions rpos l).get ⟨k % (closeDandelions rpos l).length,
      Nat.mod_lt _ hlen⟩ with hd
    have hmem : d ∈ closeDandelions rpos l := List.get_mem _ _ _
    rw [closeDandelions, List.mem_filter] at hmem
    exact ⟨d, hmem.1, h, by simpa using hmem.2⟩
  · rw [dif_neg hlen] at h
    cases h

theorem fallback_surjective (rpos : ℚ × ℚ) (l : List Dand) (d : Dand)
    (hd : d ∈ l) (hclose : distSq rpos d.pos ≤ 200 ^ 2) :
    ∃ k, find_fallback_dandelion_target rpos l k = some d.id := by
  have hmem : d ∈ closeDandelions rpos l := by
    rw [closeDandelions, List.mem_filter]
    exact ⟨hd, by simpa using hclose⟩
  obtain ⟨i, hi⟩ := List.mem_iff_get.1 hmem
  refine ⟨i.val, ?_⟩
  unfold find_fallback_dandelion_target
  have hlen : 0 < (closeDandelions rpos l).length :=
    Nat.lt_of_le_of_lt (Nat.zero_le _) i.isLt
  rw [dif_pos hlen]
  congr 1
  rw [show (⟨i.val % (closeDandelions rpos l).length, Nat.mod_lt _ hlen⟩ :
      Fin (closeDandelions rpos l).length) = i by
    apply Fin.ext
    exact Nat.mod_eq_of_lt i.isLt]
  rw [hi]

theorem fallback_none_iff (rpos : ℚ × ℚ) (l : List Dand) (k : ℕ) :
    find_fallback_dandelion_target rpos l k = none ↔
      ∀ d ∈ l, ¬ distSq rpos d.pos ≤ 200 ^ 2 := by
  unfold find_fallback_dandelion_target
  by_cases hlen : 0 < (closeDandelions rpos l).length
  · rw [dif_pos hlen]
    simp only [reduceCtorEq, false_iff]
    intro hall
    have : closeDandelions rpos l = [] := by
      rw [closeDandelions, List.filter_eq_nil_iff]
      intro d hd
      simpa using hall d hd
    rw [this] at hlen
    simp at hlen
  · rw [dif_neg hlen]
    simp only [true_iff]
    intro d hd
    have hnil : closeDandelions rpos l = [] :=
      List.length_eq_zero.1 (by omega)
    intro hclose
    have : d ∈ closeDandelions rpos l := by
      rw [closeDandelions, List.mem_filter]
      exact ⟨hd, by simpa using hclose⟩
    rw [hnil] at this
    simp at this

/-- Claim C7: on (re)selection a rabbit picks a dandelion maximising
(1000/(distance+1)) * size_bonus among those not claimed by another rabbit
(whenever such a dandelion exists); the size bonus is strictly increasing in
tier with Huge = 3.0 x Tiny; when every dandelion is claimed by another
rabbit the selection falls back to a random dandelion within 200 units
regardless of claim state (every dandelion within 200 units is a possible
outcome of the random draw, and only those are); and the selection returns
none only when, in the fallback case, no dandelion is within 200 units. -/
theorem rabbit_target_selection :
    (∀ (rabbit : ℕ) (reg : List (ℕ × ℕ)) (rpos : ℚ × ℚ) (l : List Dand) (k : ℕ),
      (∃ d ∈ l, claimedByOther reg rabbit d.id = false) →
      ∃ d ∈ l, claimedByOther reg rabbit d.id = false ∧
        find_best_dandelion_target rabbit rpos reg l k = some d.id ∧
        ∀ d2 ∈ l, claimedByOther reg rabbit d2.id = false →
          targetScore rpos d2 ≤ targetScore rpos d) ∧
    (get_dandelion_size_bonus DandelionSize.Huge =
      3 * get_dandelion_size_bonus DandelionSize.Tiny) ∧
    (∀ a b : DandelionSize, a.tierIdx < b.tierIdx →
      get_dandelion_size_bonus a < get_dandelion_size_bonus b) ∧
    (∀ (rabbit : ℕ) (reg : List (ℕ × ℕ)) (rpos : ℚ × ℚ) (l : List Dand) (k : ℕ),
      (∀ d ∈ l, claimedByOther reg rabbit d.id = true) →
      find_best_dandelion_target rabbit rpos reg l k =
        find_fallback_dandelion_target rpos l k) ∧
    (∀ (rpos : ℚ × ℚ) (l : List Dand) (k e : ℕ),
      find_fallback_dandelion_target rpos l k = some e →
      ∃ d ∈ l, d.id = e ∧ distSq rpos d.pos ≤ 200 ^ 2) ∧
    (∀ (rpos : ℚ × ℚ) (l : List Dand) (d : Dand), d ∈ l →
      distSq rpos d.pos ≤ 200 ^ 2 →
      ∃ k, find_fallback_dandelion_target rpos l k = some d.id) ∧
    (∀ (rabbit : ℕ) (reg : List (ℕ × ℕ)) (rpos : ℚ × ℚ) (l : List Dand) (k : ℕ),
      find_best_dandelion_target rabbit rpos reg l k = none →
      ∀ d ∈ l, claimedByOther reg rabbit d.id = true ∧
        ¬ distSq rpos d.pos ≤ 200 ^ 2) := by
  refine ⟨?_, by norm_num [get_dandelion_size_bonus],
    ?_, ?_, fallback_some_mem, fallback_surjective, ?_⟩
  · intro rabbit reg rpos l k ⟨d0, hd0, hd0f⟩
    rcases haux : findBestAux rabbit reg rpos l none with _ | p
    · rw [findBestAux_eq_none] at haux
      exact absurd (haux.2 d0 hd0) (by simp [hd0f])
    · obtain ⟨horig, hmax, -⟩ := findBestAux_some rabbit reg rpos l none p.1 p.2
        (by rw [haux])
      rcases horig with h1 | ⟨d, hdl, hdf, hde, hds⟩
      · cases h1
      · refine ⟨d, hdl, hdf, ?_, ?_⟩
        · unfold find_best_dandelion_target
          rw [haux, hde]
        · intro d2 hd2 hd2f
          have := hmax d2 hd2 hd2f
          rwa [hds] at this
  · intro a b hab
    cases a <;> cases b <;>
      simp_all [DandelionSize.tierIdx, get_dandelion_size_bonus] <;> norm_num
  · intro rabbit reg rpos l k hall
    unfold find_best_dandelion_target
    rw [show findBestAux rabbit reg rpos l none = none by
      rw [findBestAux_eq_none]; exact ⟨rfl, hall⟩]
  · intro rabbit reg rpos l k hnone d hd
    unfold find_best_dandelion_target at hnone
    rcases haux : findBestAux rabbit reg rpos l none with _ | p
    · rw [haux] at hnone
      rw [findBestAux_eq_none] at haux
      refine ⟨haux.2 d hd, ?_⟩
      exact (fallback_none_iff rpos l k).1 hnone d hd
    · rw [haux] at hnone
      cases hnone

/-- Witness for C7: with one unclaimed dandelion the first pass selects it;
with the only dandelion claimed by another rabbit the selection falls back;
and the close dandelion is a possible fallback outcome. -/
theorem rabbit_target_selection_witness :
    (∃ d ∈ [(⟨0, (3, 4), DandelionSize.Tiny, 1, false, false⟩ : Dand)],
      claimedByOther [] 1 d.id = false ∧
      find_best_dandelion_target 1 (0, 0) [] [⟨0, (3, 4), DandelionSize.Tiny, 1, false, false⟩] 0 =
        some d.id ∧
      ∀ d2 ∈ [(⟨0, (3, 4), DandelionSize.Tiny, 1, false, false⟩ : Dand)],
        claimedByOther [] 1 d2.id = false →
        targetScore (0, 0) d2 ≤ targetScore (0, 0) d) ∧
    find_best_dandelion_target 1 (0, 0) [(0, 99)]
        [⟨0, (3, 4), DandelionSize.Tiny, 1, false, false⟩] 0 =
      find_fallback_dandelion_target (0, 0)
        [⟨0, (3, 4), DandelionSize.Tiny, 1, false, false⟩] 0 ∧
    ∃ k, find_fallback_dandelion_target (0, 0)
        [⟨0, (3, 4), DandelionSize.Tiny, 1, false, false⟩] k = some 0 := by
  obtain ⟨h1, -, -, h4, -, h6, -⟩ := rabbit_target_selection
  refine ⟨?_, ?_, ?_⟩
  · exact h1 1 [] (0, 0) [⟨0, (3, 4), DandelionSize.Tiny, 1, false, false⟩] 0
      ⟨⟨0, (3, 4), DandelionSize.Tiny, 1, false, false⟩, by simp,
        by simp [claimedByOther, isTargeted]⟩
  · exact h4 1 [(0, 99)] (0, 0) [⟨0, (3, 4), DandelionSize.Tiny, 1, false, false⟩] 0
      (by intro d hd; simp at hd; subst hd; rfl)
  · exact h6 (0, 0) [⟨0, (3, 4), DandelionSize.Tiny, 1, false, false⟩]
      ⟨0, (3, 4), DandelionSize.Tiny, 1, false, false⟩ (by simp)
      (by norm_num [distSq])

/-! ## Upgrade-pass lemmas and claim C8 -/

theorem eq_of_id_eq {l : List Dand} (h : (l.map Dand.id).Nodup) {d1 d2 : Dand}
    (h1 : d1 ∈ l) (h2 : d2 ∈ l) (he : d1.id = d2.id) : d1 = d2 :=
  List.inj_on_of_nodup_map h h1 h2 he

theorem updateSize_map_id (l : List Dand) (e : ℕ) (ns : DandelionSize) :
    (updateSize l e ns).map Dand.id = l.map Dand.id := by
  induction l with
  | nil => rfl
  | cons x xs ih =>
      simp only [updateSize, List.map_cons] at ih ⊢
      by_cases hx : x.id = e <;> simp [hx, ih]

theorem updateSize_mem_of_ne {l : List Dand} {d : Dand} (hd : d ∈ l) {e : ℕ}
    (hne : d.id ≠ e) (ns : DandelionSize) : d ∈ updateSize l e ns := by
  unfold updateSize
  have := List.mem_map_of_mem
    (fun x => if x.id = e then { x with size := ns } else x) hd
  simpa [hne] using this

theorem updateSize_id_of_not_mem {l : List Dand} {e : ℕ}
    (h : ∀ d ∈ l, d.id ≠ e) (ns : DandelionSize) : updateSize l e ns = l := by
  induction l with
  | nil => rfl
  | cons x xs ih =>
      simp only [updateSize, List.map_cons]
      rw [if_neg (h x (List.mem_cons_self _ _))]
      congr 1
      exact ih (fun d hd => h d (List.mem_cons_of_mem _ hd))

theorem areaCoeff_updateSize {l : List Dand} (hnd : (l.map Dand.id).Nodup)
    {e : ℕ} {d : Dand} (hfind : l.find? (fun x => x.id = e) = some d)
    (ns : DandelionSize) :
    areaCoeffOf (updateSize l e ns) =
      areaCoeffOf l - d.size.visualAreaCoeff + ns.visualAreaCoeff := by
  induction l with
  | nil => cases hfind
  | cons x xs ih =>
      simp only [List.map_cons, List.nodup_cons] at hnd
      by_cases hx : x.id = e
      · rw [List.find?_cons_of_pos _ (by simpa using hx)] at hfind
        simp only [Option.some.injEq] at hfind
        subst hfind
        have hxs : updateSize xs e ns = xs := by
          apply updateSize_id_of_not_mem
          intro d2 hd2 hd2e
          exact hnd.1 (by rw [hx, ← hd2e]; exact List.mem_map_of_mem _ hd2)
        simp only [updateSize, List.map_cons, if_pos hx]
        show areaCoeffOf ({ x with size := ns } :: updateSize xs e ns) = _
        rw [hxs]
        simp only [areaCoeffOf, List.map_cons, List.sum_cons]
        ring
      · rw [List.find?_cons_of_neg _ (by simpa using hx)] at hfind
        simp only [updateSize, List.map_cons, if_neg hx]
        show areaCoeffOf (x :: updateSize xs e ns) = _
        simp only [areaCoeffOf, List.map_cons, List.sum_cons] at ih ⊢
        rw [ih hnd.2 hfind]
        ring

/-- The invariant carried through the collision pass: counter in step with
the recorded events and capped; deferred cooldown inserts are exactly the
event entities; deferred movement inserts are among them; every event is a
one-tier step on a stationary-query entity; entity ids are untouched;
entities without an event are untouched; and the difference between the
tracker and the visual-area sum is constant. -/
def UpInv (s0 : GState) (sids : List ℕ) (st : UpPass) : Prop :=
  st.count = st.events.length ∧
  st.count ≤ MAX_UPGRADES_PER_FRAME ∧
  st.pendCd = st.events.map UpEvent.id ∧
  (∀ x ∈ st.pendMv, x ∈ st.pendCd) ∧
  (∀ e ∈ st.events, e.oldSize.next_size = some e.newSize ∧ e.id ∈ sids) ∧
  st.dands.map Dand.id = s0.dands.map Dand.id ∧
  (∀ d ∈ s0.dands, d.id ∉ st.events.map UpEvent.id → d ∈ st.dands) ∧
  st.area - areaCoeffOf st.dands = s0.area - areaCoeffOf s0.dands

theorem upgradeInner_inv {s0 : GState} (hnd : (s0.dands.map Dand.id).Nodup)
    {sids : List ℕ} {st : UpPass} (hinv : UpInv s0 sids st)
    (mpos : ℚ × ℚ) (mrad : ℚ) {sid : ℕ} (hsid : sid ∈ sids) :
    UpInv s0 sids (upgradeInner mpos mrad st sid) := by
  obtain ⟨h1, h2, h3, h4, h5, h6, h7, h8⟩ := hinv
  unfold upgradeInner
  by_cases hstop : st.stopped
  · simp only [if_pos hstop]
    exact ⟨h1, h2, h3, h4, h5, h6, h7, h8⟩
  · simp only [if_neg hstop]
    by_cases hcnt : MAX_UPGRADES_PER_FRAME ≤ st.count
    · simp only [if_pos hcnt]
      exact ⟨h1, h2, h3, h4, h5, h6, h7, h8⟩
    · simp only [if_neg hcnt]
      rcases hfind : st.dands.find? (fun d => d.id = sid) with _ | d
      · rw [hfind]
        exact ⟨h1, h2, h3, h4, h5, h6, h7, h8⟩
      · rw [hfind]
        by_cases hdist : distSq mpos d.pos ≤ (mrad + d.size.collision_radius) ^ 2
        · simp only [if_pos hdist]
          rcases hns : d.size.next_size with _ | ns
          · exact ⟨h1, h2, h3, h4, h5, h6, h7, h8⟩
          · have hndcur : (st.dands.map Dand.id).Nodup := by rw [h6]; exact hnd
            refine ⟨?_, ?_, ?_, ?_, ?_, ?_, ?_, ?_⟩
            · simp [h1]
            · simp only [MAX_UPGRADES_PER_FRAME] at hcnt ⊢
              omega
            · simp [h3]
            · intro x hx
              by_cases hxs : ns = DandelionSize.Huge
              · simp only [if_pos hxs] at hx
                rcases List.mem_append.1 hx with hx1 | hx2
                · exact List.mem_append.2 (Or.inl (h4 x hx1))
                · exact List.mem_append.2 (Or.inr hx2)
              · simp only [if_neg hxs] at hx
                exact List.mem_append.2 (Or.inl (h4 x hx))
            · intro e he
              rcases List.mem_append.1 he with he1 | he2
              · exact h5 e he1
              · simp only [List.mem_singleton] at he2
                subst he2
                exact ⟨hns, hsid⟩
            · rw [updateSize_map_id]
              exact h6
            · intro d2 hd2 hd2ne
              simp only [List.map_append, List.map_cons, List.map_nil] at hd2ne
              have hne1 : d2.id ∉ st.events.map UpEvent.id := by
                intro hc
                exact hd2ne (List.mem_append.2 (Or.inl hc))
              have hne2 : d2.id ≠ sid := by
                intro hc
                exact hd2ne (List.mem_append.2 (Or.inr (by simp [hc])))
              exact updateSize_mem_of_ne (h7 d2 hd2 hne1) hne2 ns
            · rw [areaCoeff_updateSize hndcur hfind ns]
              simp only []
              linarith [h8]
        · simp only [if_neg hdist]
          exact ⟨h1, h2, h3, h4, h5, h6, h7, h8⟩

theorem upgradeInner_fold_inv {s0 : GState} (hnd : (s0.dands.map Dand.id).Nodup)
    {sids : List ℕ} (mpos : ℚ × ℚ) (mrad : ℚ) :
    ∀ (l : List ℕ), (∀ x ∈ l, x ∈ sids) → ∀ {st : UpPass}, UpInv s0 sids st →
      UpInv s0 sids (l.foldl (upgradeInner mpos mrad) st) := by
  intro l
  induction l with
  | nil => intro _ st h; exact h
  | cons x xs ih =>
      intro hsub st h
      simp only [List.foldl_cons]
      exact ih (fun y hy => hsub y (List.mem_cons_of_mem _ hy))
        (upgradeInner_inv hnd h mpos mrad (hsub x (List.mem_cons_self _ _)))

theorem upgradePass_inv {s0 : GState} (hnd : (s0.dands.map Dand.id).Nodup)
    {sids : List ℕ} (movers : List Dand) {st : UpPass} (hinv : UpInv s0 sids st) :
    UpInv s0 sids (upgradePass movers sids st) := by
  unfold upgradePass
  induction movers generalizing st with
  | nil => exact hinv
  | cons m ms ih =>
      simp only [List.foldl_cons]
      apply ih
      by_cases hm : m.size = DandelionSize.Huge
      · simp only [if_pos hm]
        exact upgradeInner_fold_inv hnd m.pos m.size.collision_radius sids
          (fun x hx => hx) hinv
      · simp only [if_neg hm]
        exact hinv

theorem upgradeResult_inv (s : GState) (hnd : (s.dands.map Dand.id).Nodup) :
    UpInv s ((s.dands.filter (fun d => ¬d.moving ∧ ¬d.cooldown)).map Dand.id)
      (upgradeResult s) := by
  apply upgradePass_inv hnd
  exact ⟨rfl, by simp [MAX_UPGRADES_PER_FRAME], rfl, by simp, by simp, rfl,
    fun d hd _ => hd, by ring⟩

theorem applyPend_mem_self {l : List Dand} {d : Dand} (hd : d ∈ l)
    {cd mv : List ℕ} (hcd : d.id ∉ cd) (hmv : d.id ∉ mv) :
    d ∈ applyPend cd mv l := by
  unfold applyPend
  have hcdc : cd.contains d.id = false := by
    simp only [List.contains_eq_any_beq, List.any_eq_false]
    intro x hx
    simp only [beq_iff_eq]
    intro hc
    exact hcd (hc ▸ hx)
  have hmvc : mv.contains d.id = false := by
    simp only [List.contains_eq_any_beq, List.any_eq_false]
    intro x hx
    simp only [beq_iff_eq]
    intro hc
    exact hmv (hc ▸ hx)
  refine List.mem_map.2 ⟨d, hd, ?_⟩
  show ({ d with
    cooldown := d.cooldown || cd.contains d.id
    moving := d.moving || mv.contains d.id } : Dand) = d
  rw [hcdc, hmvc, Bool.or_false, Bool.or_false]

/-- Claim C8: in one run of the moving-dandelion collision pass at most
MAX_UPGRADES_PER_FRAME = 10 upgrade events happen (so at most 10 stationary
dandelions are upgraded); every event moves the touched dandelion up exactly
one tier and queues an UpgradeCooldown insert for it (the cooldown Timer is
1 second); and a dandelion carrying an active UpgradeCooldown is outside the
stationary query, is never upgraded, and survives the tick unchanged. -/
theorem moving_upgrade_pass_spec (s : GState) (hnd : (s.dands.map Dand.id).Nodup) :
    (upgradeResult s).events.length ≤ MAX_UPGRADES_PER_FRAME ∧
    (∀ e ∈ (upgradeResult s).events,
      e.oldSize.next_size = some e.newSize ∧ e.id ∈ (upgradeResult s).pendCd) ∧
    (∀ d ∈ s.dands, d.cooldown = true →
      d.id ∉ (upgradeResult s).events.map UpEvent.id ∧
      d ∈ (upgradeTick s).dands) ∧
    upgradeCooldownSeconds = 1 := by
  obtain ⟨h1, h2, h3, h4, h5, h6, h7, h8⟩ := upgradeResult_inv s hnd
  have hcool : ∀ d ∈ s.dands, d.cooldown = true →
      d.id ∉ ((s.dands.filter (fun d => ¬d.moving ∧ ¬d.cooldown)).map Dand.id) := by
    intro d hd hc hmem
    simp only [List.mem_map] at hmem
    obtain ⟨d2, hd2, hd2e⟩ := hmem
    rw [List.mem_filter] at hd2
    have : d2 = d := eq_of_id_eq hnd hd2.1 hd hd2e
    subst this
    simp only [decide_eq_true_eq, Bool.not_eq_true] at hd2
    rw [hd2.2.2] at hc
    cases hc
  refine ⟨?_, ?_, ?_, by norm_num [upgradeCooldownSeconds]⟩
  · rw [← h1]
    exact h2
  · intro e he
    refine ⟨(h5 e he).1, ?_⟩
    rw [h3]
    exact List.mem_map_of_mem _ he
  · intro d hd hc
    have hnotin : d.id ∉ (upgradeResult s).events.map UpEvent.id := by
      intro hmem
      apply hcool d hd hc
      simp only [List.mem_map] at hmem
      obtain ⟨e, he, hee⟩ := hmem
      rw [← hee]
      exact (h5 e he).2
    refine ⟨hnotin, ?_⟩
    show d ∈ applyPend (upgradeResult s).pendCd (upgradeResult s).pendMv
      (upgradeResult s).dands
    have hdin : d ∈ (upgradeResult s).dands := h7 d hd hnotin
    have hcd : d.id ∉ (upgradeResult s).pendCd := by
      rw [h3]
      exact hnotin
    have hmv : d.id ∉ (upgradeResult s).pendMv := fun hm => hcd (h4 _ hm)
    exact applyPend_mem_self hdin hcd hmv

/-- Witness for C8: a concrete state with distinct ids (a Huge mover at the
origin touching one Tiny stationary dandelion, plus one dandelion already on
cooldown) instantiating the pass bounds and the cooldown protection. -/
theorem moving_upgrade_pass_spec_witness :
    (upgradeResult
        { dands := [⟨0, (0, 0), DandelionSize.Huge, 5, false, true⟩,
                    ⟨1, (10, 0), DandelionSize.Tiny, 1, false, false⟩,
                    ⟨2, (12, 0), DandelionSize.Tiny, 1, true, false⟩],
          fires := [], area := 0, nextId := 3 }).events.length ≤
      MAX_UPGRADES_PER_FRAME ∧
    (⟨2, (12, 0), DandelionSize.Tiny, 1, true, false⟩ : Dand) ∈
      (upgradeTick
        { dands := [⟨0, (0, 0), DandelionSize.Huge, 5, false, true⟩,
                    ⟨1, (10, 0), DandelionSize.Tiny, 1, false, false⟩,
                    ⟨2, (12, 0), DandelionSize.Tiny, 1, true, false⟩],
          fires := [], area := 0, nextId := 3 }).dands := by
  have hnd : (([⟨0, (0, 0), DandelionSize.Huge, 5, false, true⟩,
      ⟨1, (10, 0), DandelionSize.Tiny, 1, false, false⟩,
      ⟨2, (12, 0), DandelionSize.Tiny, 1, true, false⟩] : List Dand).map Dand.id).Nodup := by
    simp
  have := moving_upgrade_pass_spec
    { dands := [⟨0, (0, 0), DandelionSize.Huge, 5, false, true⟩,
                ⟨1, (10, 0), DandelionSize.Tiny, 1, false, false⟩,
                ⟨2, (12, 0), DandelionSize.Tiny, 1, true, false⟩],
      fires := [], area := 0, nextId := 3 } hnd
  exact ⟨this.1, (this.2.2.1 ⟨2, (12, 0), DandelionSize.Tiny, 1, true, false⟩
    (by simp) rfl).2⟩

/-! ## Merge-pass lemmas and claim C4 -/

/-- A recorded merge is sound with respect to a dandelion list: two distinct
entities occurring in that order, same size, within the merge radius, with a
next tier, and the recorded position is their midpoint. -/
def MergeOK (l : List Dand) (m : MergeRec) : Prop :=
  ∃ d1 d2 : Dand, [d1, d2].Sublist l ∧ d1.id = m.e1 ∧ d2.id = m.e2 ∧
    d1.size = m.oldSize ∧ d2.size = m.oldSize ∧
    distSq d1.pos d2.pos ≤ m.oldSize.merge_radius ^ 2 ∧
    m.oldSize.next_size = some m.newSize ∧
    m.mpos = mergeMidpoint d1.pos d2.pos

theorem recIds_append (a b : List MergeRec) :
    recIds (a ++ b) = recIds a ++ recIds b := by
  induction a with
  | nil => rfl
  | cons m ms ih => simp [recIds, ih]

theorem innerScan_claimed_mono (d1 : Dand) :
    ∀ (rest : List Dand) (st : List ℕ × List MergeRec) (x : ℕ),
      x ∈ st.1 → x ∈ (innerScan d1 rest st).1 := by
  intro rest
  induction rest with
  | nil => intro st x hx; exact hx
  | cons d2 rest ih =>
      rintro ⟨claimed, acc⟩ x hx
      unfold innerScan
      by_cases hg : claimed.contains d1.id ∨ claimed.contains d2.id
      · rw [if_pos hg]; exact ih _ x hx
      · rw [if_neg hg]
        by_cases hs : d1.size = d2.size
        · rw [if_pos hs]
          by_cases hdist : distSq d1.pos d2.pos ≤ d1.size.merge_radius ^ 2
          · rw [if_pos hdist]
            rcases hns : d1.size.next_size with _ | ns
            · exact ih _ x hx
            · exact ih _ x (by simp only [List.mem_cons]; exact Or.inr (Or.inr hx))
          · rw [if_neg hdist]; exact ih _ x hx
        · rw [if_neg hs]; exact ih _ x hx

theorem outerScan_claimed_mono :
    ∀ (l : List Dand) (st : List ℕ × List MergeRec) (x : ℕ),
      x ∈ st.1 → x ∈ (outerScan l st).1 := by
  intro l
  induction l with
  | nil => intro st x hx; exact hx
  | cons d rest ih =>
      intro st x hx
      exact ih _ x (innerScan_claimed_mono d rest st x hx)

/-- The scan invariant: claimed entities are exactly the participants of the
recorded merges, no entity participates twice, and every record is sound. -/
def ScanInv (l0 : List Dand) (st : List ℕ × List MergeRec) : Prop :=
  (∀ x, x ∈ st.1 ↔ x ∈ recIds st.2) ∧
  (recIds st.2).Nodup ∧
  (∀ m ∈ st.2, MergeOK l0 m)

theorem innerScan_inv {l0 : List Dand} (hnd : (l0.map Dand.id).Nodup) (d1 : Dand) :
    ∀ (rest : List Dand), (d1 :: rest).Sublist l0 →
      ∀ (st : List ℕ × List MergeRec), ScanInv l0 st →
        ScanInv l0 (innerScan d1 rest st) := by
  intro rest
  induction rest with
  | nil => intro _ st h; exact h
  | cons d2 rest ih =>
      intro hsub st hinv
      obtain ⟨claimed, acc⟩ := st
      obtain ⟨hiff, hdup, hok⟩ := hinv
      have hsub1 : (d1 :: rest).Sublist l0 :=
        (List.Sublist.cons₂ d1 ((List.sublist_cons_self _ _))).trans hsub
      unfold innerScan
      by_cases hg : claimed.contains d1.id ∨ claimed.contains d2.id
      · rw [if_pos hg]; exact ih hsub1 _ ⟨hiff, hdup, hok⟩
      · rw [if_neg hg]
        by_cases hs : d1.size = d2.size
        · rw [if_pos hs]
          by_cases hdist : distSq d1.pos d2.pos ≤ d1.size.merge_radius ^ 2
          · rw [if_pos hdist]
            rcases hns : d1.size.next_size with _ | ns
            · exact ih hsub1 _ ⟨hiff, hdup, hok⟩
            · apply ih hsub1
              have hpair : [d1, d2].Sublist l0 := by
                refine List.Sublist.trans ?_ hsub
                exact List.Sublist.cons₂ d1 (List.Sublist.cons₂ d2 (List.nil_sublist rest))
              have hne : d1.id ≠ d2.id := by
                have hp : ([d1, d2].map Dand.id).Sublist (l0.map Dand.id) :=
                  hpair.map Dand.id
                have := hnd.sublist hp
                simp only [List.map_cons, List.map_nil, List.nodup_cons,
                  List.mem_singleton, List.not_mem_nil] at this
                simpa using this
              have hd1n : d1.id ∉ claimed := by
                intro hc
                exact hg (Or.inl (by
                  simp only [List.contains_eq_any_beq, List.any_eq_true]
                  exact ⟨d1.id, hc, by simp⟩))
              have hd2n : d2.id ∉ claimed := by
                intro hc
                exact hg (Or.inr (by
                  simp only [List.contains_eq_any_beq, List.any_eq_true]
                  exact ⟨d2.id, hc, by simp⟩))
              refine ⟨?_, ?_, ?_⟩
              · intro x
                simp only [List.mem_cons, recIds_append, recIds,
                  List.mem_append, hiff x]
                constructor
                · rintro (rfl | rfl | hx)
                  · exact Or.inr (by simp)
                  · exact Or.inr (by simp)
                  · exact Or.inl hx
                · rintro (hx | hx)
                  · exact Or.inr (Or.inr hx)
                  · simp only [List.mem_cons, List.not_mem_nil, or_false] at hx
                    rcases hx with rfl | rfl
                    · exact Or.inl rfl
                    · exact Or.inr (Or.inl rfl)
              · rw [recIds_append]
                simp only [recIds]
                apply List.Nodup.append hdup
                · simp [hne]
                · intro x hx1 hx2
                  simp only [List.mem_cons, List.not_mem_nil, or_false] at hx2
                  rcases hx2 with rfl | rfl
                  · exact hd1n ((hiff _).2 hx1)
                  · exact hd2n ((hiff _).2 hx1)
              · intro m hm
                rcases List.mem_append.1 hm with hm1 | hm2
                · exact hok m hm1
                · simp only [List.mem_singleton] at hm2
                  subst hm2
                  exact ⟨d1, d2, hpair, rfl, rfl, rfl, hs.symm, hdist, hns, rfl⟩
          · rw [if_neg hdist]; exact ih hsub1 _ ⟨hiff, hdup, hok⟩
        · rw [if_neg hs]; exact ih hsub1 _ ⟨hiff, hdup, hok⟩

theorem outerScan_inv {l0 : List Dand} (hnd : (l0.map Dand.id).Nodup) :
    ∀ (l : List Dand), l.Sublist l0 →
      ∀ (st : List ℕ × List MergeRec), ScanInv l0 st →
        ScanInv l0 (outerScan l st) := by
  intro l
  induction l with
  | nil => intro _ st h; exact h
  | cons d rest ih =>
      intro hsub st hinv
      have hrest : rest.Sublist l0 := ((List.sublist_cons_self _ _).trans hsub)
      exact ih hrest _ (innerScan_inv hnd d rest hsub st hinv)

theorem computeMerges_inv {l : List Dand} (hnd : (l.map Dand.id).Nodup) :
    (∀ x, x ∈ claimedIds l ↔ x ∈ recIds (computeMerges l)) ∧
    (recIds (computeMerges l)).Nodup ∧
    (∀ m ∈ computeMerges l, MergeOK l m) :=
  outerScan_inv hnd l (List.Sublist.refl l) ([], [])
    ⟨by simp [recIds], by simp [recIds], by simp⟩

theorem innerScan_complete (d1 : Dand) :
    ∀ (rest : List Dand) (st : List ℕ × List MergeRec) (d2 : Dand),
      d2 ∈ rest → d1.size = d2.size →
      distSq d1.pos d2.pos ≤ d1.size.merge_radius ^ 2 →
      (d1.size.next_size).isSome →
      d1.id ∈ (innerScan d1 rest st).1 ∨ d2.id ∈ (innerScan d1 rest st).1 := by
  intro rest
  induction rest with
  | nil => intro st d2 h; simp at h
  | cons x rest ih =>
      rintro ⟨claimed, acc⟩ d2 hmem hs hdist hns
      rcases List.mem_cons.1 hmem with rfl | hmem2
      · unfold innerScan
        by_cases hg : claimed.contains d1.id ∨ claimed.contains d2.id
        · rw [if_pos hg]
          rcases hg with hg1 | hg2
          · refine Or.inl (innerScan_claimed_mono d1 rest _ d1.id ?_)
            simpa using hg1
          · refine Or.inr (innerScan_claimed_mono d1 rest _ d2.id ?_)
            simpa using hg2
        · rw [if_neg hg, if_pos hs, if_pos hdist]
          rcases hn : d1.size.next_size with _ | ns
          · rw [hn] at hns; cases hns
          · refine Or.inl (innerScan_claimed_mono d1 rest _ d1.id ?_)
            simp
      · unfold innerScan
        by_cases hg : claimed.contains d1.id ∨ claimed.contains x.id
        · rw [if_pos hg]; exact ih _ d2 hmem2 hs hdist hns
        · rw [if_neg hg]
          by_cases hsx : d1.size = x.size
          · rw [if_pos hsx]
            by_cases hdx : distSq d1.pos x.pos ≤ d1.size.merge_radius ^ 2
            · rw [if_pos hdx]
              rcases hn : d1.size.next_size with _ | ns
              · exact ih _ d2 hmem2 hs hdist hns
              · exact ih _ d2 hmem2 hs hdist hns
            · rw [if_neg hdx]; exact ih _ d2 hmem2 hs hdist hns
          · rw [if_neg hsx]; exact ih _ d2 hmem2 hs hdist hns

theorem outerScan_complete :
    ∀ (l : List Dand) (st : List ℕ × List MergeRec) (d1 d2 : Dand),
      [d1, d2].Sublist l → d1.size = d2.size →
      distSq d1.pos d2.pos ≤ d1.size.merge_radius ^ 2 →
      (d1.size.next_size).isSome →
      d1.id ∈ (outerScan l st).1 ∨ d2.id ∈ (outerScan l st).1 := by
  intro l
  induction l with
  | nil => intro st d1 d2 h; simp at h
  | cons x rest ih =>
      intro st d1 d2 hsub hs hdist hns
      cases hsub with
      | cons _ hsub2 =>
          exact ih _ d1 d2 hsub2 hs hdist hns
      | cons₂ _ hsub2 =>
          have hmem : d2 ∈ rest := hsub2.subset (by simp)
          rcases innerScan_complete x rest st d2 hmem hs hdist hns with h | h
          · exact Or.inl (outerScan_claimed_mono rest _ _ h)
          · exact Or.inr (outerScan_claimed_mono rest _ _ h)

theorem innerScan_huge (d1 : Dand) (h1 : d1.size = DandelionSize.Huge) :
    ∀ (rest : List Dand) (st : List ℕ × List MergeRec),
      innerScan d1 rest st = st := by
  intro rest
  induction rest with
  | nil => intro st; rfl
  | cons d2 rest ih =>
      rintro ⟨claimed, acc⟩
      unfold innerScan
      by_cases hg : claimed.contains d1.id ∨ claimed.contains d2.id
      · rw [if_pos hg]; exact ih _
      · rw [if_neg hg]
        by_cases hs : d1.size = d2.size
        · rw [if_pos hs]
          by_cases hdist : distSq d1.pos d2.pos ≤ d1.size.merge_radius ^ 2
          · rw [if_pos hdist]
            rcases hn : d1.size.next_size with _ | ns
            · exact ih _
            · rw [h1] at hn; cases hn
          · rw [if_neg hdist]; exact ih _
        · rw [if_neg hs]; exact ih _

theorem computeMerges_huge {l : List Dand}
    (h : ∀ d ∈ l, d.size = DandelionSize.Huge) :
    computeMerges l = [] := by
  suffices hsuff : ∀ (l2 : List Dand), (∀ d ∈ l2, d.size = DandelionSize.Huge) →
      ∀ st, outerScan l2 st = st by
    unfold computeMerges
    rw [hsuff l h ([], [])]
  intro l2
  induction l2 with
  | nil => intro _ st; rfl
  | cons d rest ih =>
      intro hall st
      show outerScan rest (innerScan d rest st) = st
      rw [innerScan_huge d (hall d (by simp)) rest st]
      exact ih (fun x hx => hall x (List.mem_cons_of_mem _ hx)) st

theorem filter_id_of_not_mem {l : List Dand} {e : ℕ}
    (h : ∀ d ∈ l, d.id ≠ e) : l.filter (fun x => x.id ≠ e) = l := by
  induction l with
  | nil => rfl
  | cons x xs ih =>
      rw [List.filter_cons_of_pos (by simpa using h x (List.mem_cons_self _ _))]
      rw [ih (fun d hd => h d (List.mem_cons_of_mem _ hd))]

theorem areaCoeff_filter_ne {l : List Dand} (hnd : (l.map Dand.id).Nodup)
    {e : ℕ} {d : Dand} (hd : d ∈ l) (hde : d.id = e) :
    areaCoeffOf (l.filter (fun x => x.id ≠ e)) =
      areaCoeffOf l - d.size.visualAreaCoeff := by
  induction l with
  | nil => cases hd
  | cons x xs ih =>
      simp only [List.map_cons, List.nodup_cons] at hnd
      rcases List.mem_cons.1 hd with rfl | hdx
      · rw [List.filter_cons_of_neg (by simpa using hde)]
        rw [filter_id_of_not_mem (fun d2 hd2 hc => hnd.1
          (by rw [hde, ← hc]; exact List.mem_map_of_mem _ hd2))]
        simp only [areaCoeffOf, List.map_cons, List.sum_cons]
        ring
      · have hxe : x.id ≠ e := by
          intro hc
          exact hnd.1 (by rw [hc, ← hde]; exact List.mem_map_of_mem _ hdx)
        rw [List.filter_cons_of_pos (by simpa using hxe)]
        simp only [areaCoeffOf, List.map_cons, List.sum_cons] at ih ⊢
        rw [ih hnd.2 hdx]
        ring

theorem filter_and_eq (l : List Dand) (e1 e2 : ℕ) :
    l.filter (fun d => d.id ≠ e1 ∧ d.id ≠ e2) =
      (l.filter (fun x => x.id ≠ e1)).filter (fun x => x.id ≠ e2) := by
  induction l with
  | nil => rfl
  | cons x xs ih =>
      by_cases h1 : x.id = e1
      · rw [List.filter_cons_of_neg (by simp [h1]),
          List.filter_cons_of_neg (by simp [h1])]
        exact ih
      · by_cases h2 : x.id = e2
        · rw [List.filter_cons_of_neg (by simp [h2]),
            List.filter_cons_of_pos (by simpa using h1),
            List.filter_cons_of_neg (by simp [h2])]
          exact ih
        · rw [List.filter_cons_of_pos (by simp [h1, h2]),
            List.filter_cons_of_pos (by simpa using h1),
            List.filter_cons_of_pos (by simpa using h2)]
          rw [ih]

theorem mem_recIds {ms : List MergeRec} {m : MergeRec} (h : m ∈ ms) :
    m.e1 ∈ recIds ms ∧ m.e2 ∈ recIds ms := by
  induction ms with
  | nil => cases h
  | cons m2 ms ih =>
      rcases List.mem_cons.1 h with rfl | h2
      · simp [recIds]
      · have := ih h2
        simp only [recIds, List.mem_cons]
        exact ⟨Or.inr (Or.inr this.1), Or.inr (Or.inr this.2)⟩

/-- The dandelions spawned by executing a list of merges, with the fresh ids
they receive. -/
def newDandsOf : ℕ → List MergeRec → List Dand
  | _, [] => []
  | n, m :: ms =>
      ⟨n, m.mpos, m.newSize, m.newSize.base_health, false,
        m.newSize = DandelionSize.Huge⟩ :: newDandsOf (n + 1) ms

theorem execMerge_fold (ms : List MergeRec) :
    ∀ (s : GState),
      (s.dands.map Dand.id).Nodup →
      (∀ d ∈ s.dands, d.id < s.nextId) →
      (∀ m ∈ ms, MergeOK s.dands m) →
      (recIds ms).Nodup →
      (∀ x ∈ recIds ms, x < s.nextId) →
      (∀ d : Dand, d ∈ (ms.foldl execMerge s).dands ↔
        ((d ∈ s.dands ∧ d.id ∉ recIds ms) ∨ d ∈ newDandsOf s.nextId ms)) ∧
      ((ms.foldl execMerge s).dands.map Dand.id).Nodup ∧
      (∀ d ∈ (ms.foldl execMerge s).dands, d.id < (ms.foldl execMerge s).nextId) ∧
      ((ms.foldl execMerge s).area - areaCoeffOf (ms.foldl execMerge s).dands =
        s.area - areaCoeffOf s.dands) := by
  induction ms with
  | nil =>
      intro s _ hidb _ _ _
      refine ⟨?_, by assumption, hidb, by simp [List.foldl_nil]⟩
      intro d
      simp [recIds, newDandsOf]
  | cons m ms ih =>
      intro s hnd hidb hok hrnd hrb
      obtain ⟨d1, d2, hpair, he1, he2, hsz1, hsz2, -, -, -⟩ :=
        hok m (List.mem_cons_self _ _)
      have hd1 : d1 ∈ s.dands := hpair.subset (by simp)
      have hd2 : d2 ∈ s.dands := hpair.subset (by simp)
      have hrndx : (¬m.e1 = m.e2 ∧ m.e1 ∉ recIds ms) ∧
          m.e2 ∉ recIds ms ∧ (recIds ms).Nodup := by
        simpa [recIds] using hrnd
      have hrnd' : (recIds ms).Nodup := hrndx.2.2
      have hne12 : m.e1 ≠ m.e2 := hrndx.1.1
      have he1nr : m.e1 ∉ recIds ms := hrndx.1.2
      have he2nr : m.e2 ∉ recIds ms := hrndx.2.1
      set newD : Dand := ⟨s.nextId, m.mpos, m.newSize, m.newSize.base_health,
        false, m.newSize = DandelionSize.Huge⟩ with hnewD
      have hs1d : (execMerge s m).dands =
          s.dands.filter (fun d => d.id ≠ m.e1 ∧ d.id ≠ m.e2) ++ [newD] := rfl
      have hfsub : (s.dands.filter
          (fun d => d.id ≠ m.e1 ∧ d.id ≠ m.e2)).Sublist s.dands :=
        List.filter_sublist _
      have hnd1 : ((execMerge s m).dands.map Dand.id).Nodup := by
        rw [hs1d, List.map_append]
        apply List.Nodup.append
        · exact (hfsub.map Dand.id).nodup hnd
        · simp
        · intro x hx1 hx2
          simp only [List.map_cons, List.map_nil, List.mem_singleton] at hx2
          subst hx2
          simp only [List.mem_map] at hx1
          obtain ⟨d3, hd3, hd3e⟩ := hx1
          have : d3 ∈ s.dands := hfsub.subset hd3
          have := hidb d3 this
          omega
      have hidb1 : ∀ d ∈ (execMerge s m).dands, d.id < (execMerge s m).nextId := by
        intro d hd
        rw [hs1d] at hd
        rcases List.mem_append.1 hd with hd | hd
        · have := hidb d (hfsub.subset hd)
          show d.id < s.nextId + 1
          omega
        · simp only [List.mem_singleton] at hd
          subst hd
          show s.nextId < s.nextId + 1
          omega
      have hok1 : ∀ m2 ∈ ms, MergeOK (execMerge s m).dands m2 := by
        intro m2 hm2
        obtain ⟨c1, c2, hcp, hce1, hce2, hcs1, hcs2, hcd, hcn, hcm⟩ := hok m2
          (List.mem_cons_of_mem _ hm2)
        have hc1r := (mem_recIds hm2).1
        have hc2r := (mem_recIds hm2).2
        have hc1p : c1.id ≠ m.e1 ∧ c1.id ≠ m.e2 := by
          constructor
          · intro hc; rw [hce1] at hc; exact he1nr (hc ▸ hc1r)
          · intro hc; rw [hce1] at hc; exact he2nr (hc ▸ hc1r)
        have hc2p : c2.id ≠ m.e1 ∧ c2.id ≠ m.e2 := by
          constructor
          · intro hc; rw [hce2] at hc; exact he1nr (hc ▸ hc2r)
          · intro hc; rw [hce2] at hc; exact he2nr (hc ▸ hc2r)
        refine ⟨c1, c2, ?_, hce1, hce2, hcs1, hcs2, hcd, hcn, hcm⟩
        rw [hs1d]
        refine List.Sublist.trans ?_ (List.sublist_append_left _ _)
        have := hcp.filter (fun d => decide (d.id ≠ m.e1 ∧ d.id ≠ m.e2))
        rwa [show ([c1, c2].filter (fun d => decide (d.id ≠ m.e1 ∧ d.id ≠ m.e2)))
            = [c1, c2] by
          rw [List.filter_cons_of_pos (by simp [hc1p.1, hc1p.2]),
            List.filter_cons_of_pos (by simp [hc2p.1, hc2p.2]),
            List.filter_nil]] at this
      have hrb1 : ∀ x ∈ recIds ms, x < (execMerge s m).nextId := by
        intro x hx
        have : x < s.nextId := hrb x (by simp [recIds, List.mem_cons]; exact Or.inr (Or.inr hx))
        show x < s.nextId + 1
        omega
      have harea1 : (execMerge s m).area - areaCoeffOf (execMerge s m).dands =
          s.area - areaCoeffOf s.dands := by
        have hstep1 : areaCoeffOf (s.dands.filter (fun x => x.id ≠ m.e1)) =
            areaCoeffOf s.dands - d1.size.visualAreaCoeff :=
          areaCoeff_filter_ne hnd hd1 he1
        have hnd2 : ((s.dands.filter (fun x => x.id ≠ m.e1)).map Dand.id).Nodup :=
          ((List.filter_sublist _).map Dand.id).nodup hnd
        have hd2f : d2 ∈ s.dands.filter (fun x => x.id ≠ m.e1) := by
          rw [List.mem_filter]
          refine ⟨hd2, ?_⟩
          simp only [decide_eq_true_eq]
          rw [he2]
          exact hne12.symm
        have hstep2 : areaCoeffOf ((s.dands.filter (fun x => x.id ≠ m.e1)).filter
            (fun x => x.id ≠ m.e2)) =
            areaCoeffOf (s.dands.filter (fun x => x.id ≠ m.e1)) -
              d2.size.visualAreaCoeff :=
          areaCoeff_filter_ne hnd2 hd2f he2
        rw [hs1d]
        show s.area - 2 * m.oldSize.visualAreaCoeff + m.newSize.visualAreaCoeff -
          areaCoeffOf _ = _
        rw [show areaCoeffOf (s.dands.filter
            (fun d => d.id ≠ m.e1 ∧ d.id ≠ m.e2) ++ [newD]) =
            areaCoeffOf (s.dands.filter (fun d => d.id ≠ m.e1 ∧ d.id ≠ m.e2)) +
              m.newSize.visualAreaCoeff by
          simp [areaCoeffOf, hnewD]]
        rw [filter_and_eq, hstep2, hstep1, hsz1, hsz2]
        ring
      obtain ⟨hm1, hm2, hm3, hm4⟩ := ih (execMerge s m) hnd1 hidb1 hok1 hrnd' hrb1
      have hfold : (m :: ms).foldl execMerge s = ms.foldl execMerge (execMerge s m) := rfl
      refine ⟨?_, by rw [hfold]; exact hm2, by rw [hfold]; exact hm3, ?_⟩
      · intro d
        rw [hfold, hm1 d]
        constructor
        · rintro (⟨hds1, hdnr⟩ | hdnew)
          · rw [hs1d] at hds1
            rcases List.mem_append.1 hds1 with hdf | hdn
            · rw [List.mem_filter] at hdf
              refine Or.inl ⟨hdf.1, ?_⟩
              simp only [decide_eq_true_eq] at hdf
              simp only [recIds, List.mem_cons]
              rintro (hc | hc | hc)
              · exact hdf.2.1 hc
              · exact hdf.2.2 hc
              · exact hdnr hc
            · simp only [List.mem_singleton] at hdn
              subst hdn
              exact Or.inr (by simp [newDandsOf, hnewD])
          · refine Or.inr ?_
            show d ∈ newDandsOf s.nextId (m :: ms)
            simp only [newDandsOf, List.mem_cons]
            exact Or.inr (by simpa [execMerge] using hdnew)
        · rintro (⟨hds, hdnr⟩ | hdnew)
          · simp only [recIds, List.mem_cons] at hdnr
            refine Or.inl ⟨?_, fun hc => hdnr (Or.inr (Or.inr hc))⟩
            rw [hs1d]
            refine List.mem_append.2 (Or.inl ?_)
            rw [List.mem_filter]
            refine ⟨hds, ?_⟩
            simp only [decide_eq_true_eq]
            exact ⟨fun hc => hdnr (Or.inl hc), fun hc => hdnr (Or.inr (Or.inl hc))⟩
          · simp only [newDandsOf, List.mem_cons] at hdnew
            rcases hdnew with rfl | hdnew
            · refine Or.inl ⟨?_, ?_⟩
              · rw [hs1d]
                exact List.mem_append.2 (Or.inr (by simp [hnewD]))
              · show (s.nextId : ℕ) ∉ recIds ms
                intro hc
                have hlt := hrb s.nextId (by
                  simp only [recIds, List.mem_cons]
                  exact Or.inr (Or.inr hc))
                omega
            · exact Or.inr (by simpa [execMerge] using hdnew)
      · rw [hfold, hm4, harea1]

theorem recIds_mem_iff {ms : List MergeRec} {x : ℕ} :
    x ∈ recIds ms ↔ ∃ m ∈ ms, x = m.e1 ∨ x = m.e2 := by
  induction ms with
  | nil => simp [recIds]
  | cons m ms ih =>
      simp only [recIds, List.mem_cons, ih]
      constructor
      · rintro (rfl | rfl | ⟨m2, hm2, h⟩)
        · exact ⟨m, Or.inl rfl, Or.inl rfl⟩
        · exact ⟨m, Or.inl rfl, Or.inr rfl⟩
        · exact ⟨m2, Or.inr hm2, h⟩
      · rintro ⟨m2, rfl | hm2, h⟩
        · rcases h with rfl | rfl
          · exact Or.inl rfl
          · exact Or.inr (Or.inl rfl)
        · exact Or.inr (Or.inr ⟨m2, hm2, h⟩)

theorem newDandsOf_id_ge :
    ∀ (n : ℕ) (ms : List MergeRec) (d : Dand), d ∈ newDandsOf n ms → n ≤ d.id := by
  intro n ms
  induction ms generalizing n with
  | nil => intro d h; simp [newDandsOf] at h
  | cons m ms ih =>
      intro d h
      simp only [newDandsOf, List.mem_cons] at h
      rcases h with rfl | h
      · exact le_rfl
      · have := ih (n + 1) d h
        omega

theorem newDandsOf_exists :
    ∀ (n : ℕ) (ms : List MergeRec) (m : MergeRec), m ∈ ms →
      ∃ nw ∈ newDandsOf n ms, nw.pos = m.mpos ∧ nw.size = m.newSize := by
  intro n ms
  induction ms generalizing n with
  | nil => intro m h; cases h
  | cons m2 ms ih =>
      intro m h
      rcases List.mem_cons.1 h with rfl | h2
      · refine ⟨⟨n, m.mpos, m.newSize, m.newSize.base_health, false,
          m.newSize = DandelionSize.Huge⟩, ?_, rfl, rfl⟩
        simp [newDandsOf]
      · obtain ⟨nw, hnw, hp, hsz⟩ := ih (n + 1) m h2
        exact ⟨nw, by simp only [newDandsOf, List.mem_cons]; exact Or.inr hnw, hp, hsz⟩

theorem next_size_tierIdx {a b : DandelionSize} (h : a.next_size = some b) :
    b.tierIdx = a.tierIdx + 1 := by
  cases a <;> simp [DandelionSize.next_size] at h <;>
    subst h <;> rfl

theorem recIds_lt_nextId {s : GState} (hidb : ∀ d ∈ s.dands, d.id < s.nextId)
    (hok : ∀ m ∈ computeMerges s.dands, MergeOK s.dands m) :
    ∀ x ∈ recIds (computeMerges s.dands), x < s.nextId := by
  intro x hx
  obtain ⟨m, hm, hor⟩ := recIds_mem_iff.1 hx
  obtain ⟨d1, d2, hpair, he1, he2, -⟩ := hok m hm
  rcases hor with rfl | rfl
  · rw [← he1]
    exact hidb d1 (hpair.subset (by simp))
  · rw [← he2]
    exact hidb d2 (hpair.subset (by simp))

/-- One run of check_dandelion_merging preserves well-formedness. -/
theorem mergeTick_WF {s : GState} (h : WF s) : WF (mergeTick s) := by
  obtain ⟨hnd, hidb, harea⟩ := h
  obtain ⟨hiff, hrnd, hok⟩ := computeMerges_inv hnd
  obtain ⟨hm1, hm2, hm3, hm4⟩ := execMerge_fold (computeMerges s.dands) s hnd hidb
    hok hrnd (recIds_lt_nextId hidb hok)
  refine ⟨hm2, hm3, ?_⟩
  show (mergeTick s).area = areaCoeffOf (mergeTick s).dands
  have : (mergeTick s).area - areaCoeffOf (mergeTick s).dands =
      s.area - areaCoeffOf s.dands := hm4
  rw [harea] at this
  linarith

/-- Claim C4: with distinct entity ids, a pair is recorded to merge exactly
under the conditions of the scan: every recorded merge joins two distinct
same-tier dandelions within merge radius whose tier has a successor, at
their midpoint; no entity takes part in two recorded merges of the same
tick; any qualifying pair (same tier, within merge radius, successor tier
exists) has at least one member claimed by the greedy first-come scan; an
executed merge despawns both parents and spawns one dandelion of the next
tier at the midpoint; and a pair of Huge dandelions never merges: the whole
tick is a no-op on an all-Huge population. -/
theorem check_dandelion_merging_spec (s : GState)
    (hnd : (s.dands.map Dand.id).Nodup)
    (hidb : ∀ d ∈ s.dands, d.id < s.nextId) :
    (∀ m ∈ computeMerges s.dands,
      ∃ d1 d2 : Dand, [d1, d2].Sublist s.dands ∧ d1.id = m.e1 ∧ d2.id = m.e2 ∧
        d1.size = m.oldSize ∧ d2.size = m.oldSize ∧
        distSq d1.pos d2.pos ≤ m.oldSize.merge_radius ^ 2 ∧
        m.oldSize.next_size = some m.newSize ∧
        m.mpos = mergeMidpoint d1.pos d2.pos) ∧
    (recIds (computeMerges s.dands)).Nodup ∧
    (∀ d1 d2 : Dand, [d1, d2].Sublist s.dands → d1.size = d2.size →
      distSq d1.pos d2.pos ≤ d1.size.merge_radius ^ 2 →
      (d1.size.next_size).isSome →
      d1.id ∈ recIds (computeMerges s.dands) ∨
        d2.id ∈ recIds (computeMerges s.dands)) ∧
    (∀ m ∈ computeMerges s.dands,
      (∀ d ∈ (mergeTick s).dands, d.id ≠ m.e1 ∧ d.id ≠ m.e2) ∧
      (∃ nw ∈ (mergeTick s).dands, nw.pos = m.mpos ∧ nw.size = m.newSize ∧
        nw.size.tierIdx = m.oldSize.tierIdx + 1)) ∧
    ((∀ d ∈ s.dands, d.size = DandelionSize.Huge) → mergeTick s = s) := by
  obtain ⟨hiff, hrnd, hok⟩ := computeMerges_inv hnd
  obtain ⟨hm1, hm2, hm3, hm4⟩ := execMerge_fold (computeMerges s.dands) s hnd hidb
    hok hrnd (recIds_lt_nextId hidb hok)
  refine ⟨hok, hrnd, ?_, ?_, ?_⟩
  · intro d1 d2 hsub hs hdist hns
    have := outerScan_complete s.dands ([], []) d1 d2 hsub hs hdist hns
    rcases this with h | h
    · exact Or.inl ((hiff _).1 h)
    · exact Or.inr ((hiff _).1 h)
  · intro m hm
    have hids := mem_recIds hm
    constructor
    · intro d hd
      rcases (hm1 d).1 hd with ⟨-, hdnr⟩ | hdnew
      · exact ⟨fun hc => hdnr (hc ▸ hids.1), fun hc => hdnr (hc ▸ hids.2)⟩
      · have hge := newDandsOf_id_ge s.nextId _ d hdnew
        have hlt := recIds_lt_nextId hidb hok
        exact ⟨fun hc => absurd (hlt _ (hc ▸ hids.1)) (by omega),
          fun hc => absurd (hlt _ (hc ▸ hids.2)) (by omega)⟩
    · obtain ⟨nw, hnw, hp, hsz⟩ := newDandsOf_exists s.nextId _ m hm
      refine ⟨nw, (hm1 nw).2 (Or.inr hnw), hp, hsz, ?_⟩
      rw [hsz]
      obtain ⟨-, -, -, -, -, -, -, -, hnext, -⟩ := hok m hm
      exact next_size_tierIdx hnext
  · intro hall
    unfold mergeTick
    rw [computeMerges_huge hall]
    rfl

/-- Witness for C4: two Huge dandelions within merge range stay unchanged
(no-op), and a qualifying Tiny pair is claimed by the scan, at concrete
states with distinct ids. -/
theorem check_dandelion_merging_spec_witness :
    mergeTick
        { dands := [⟨0, (0, 0), DandelionSize.Huge, 5, false, true⟩,
                    ⟨1, (10, 0), DandelionSize.Huge, 5, false, true⟩],
          fires := [], area := 0, nextId := 2 } =
      { dands := [⟨0, (0, 0), DandelionSize.Huge, 5, false, true⟩,
                  ⟨1, (10, 0), DandelionSize.Huge, 5, false, true⟩],
        fires := [], area := 0, nextId := 2 } ∧
    ((0 : ℕ) ∈ recIds (computeMerges
        [⟨0, (0, 0), DandelionSize.Tiny, 1, false, false⟩,
         ⟨1, (10, 0), DandelionSize.Tiny, 1, false, false⟩]) ∨
      (1 : ℕ) ∈ recIds (computeMerges
        [⟨0, (0, 0), DandelionSize.Tiny, 1, false, false⟩,
         ⟨1, (10, 0), DandelionSize.Tiny, 1, false, false⟩])) := by
  constructor
  · exact (check_dandelion_merging_spec
      { dands := [⟨0, (0, 0), DandelionSize.Huge, 5, false, true⟩,
                  ⟨1, (10, 0), DandelionSize.Huge, 5, false, true⟩],
        fires := [], area := 0, nextId := 2 }
      (by simp) (by intro d hd; simp at hd; rcases hd with rfl | rfl <;> simp)).2.2.2.2
      (by intro d hd; simp at hd; rcases hd with rfl | rfl <;> rfl)
  · have := (check_dandelion_merging_spec
      { dands := [⟨0, (0, 0), DandelionSize.Tiny, 1, false, false⟩,
                  ⟨1, (10, 0), DandelionSize.Tiny, 1, false, false⟩],
        fires := [], area := 0, nextId := 2 }
      (by simp) (by intro d hd; simp at hd; rcases hd with rfl | rfl <;> simp)).2.2.1
      ⟨0, (0, 0), DandelionSize.Tiny, 1, false, false⟩
      ⟨1, (10, 0), DandelionSize.Tiny, 1, false, false⟩
      (List.Sublist.refl _) rfl
      (by norm_num [distSq, DandelionSize.merge_radius,
        DandelionSize.collision_radius]) (by rfl)
    exact this

/-! ## Well-formedness preservation and claim C1 -/

theorem areaCoeffOf_append (a b : List Dand) :
    areaCoeffOf (a ++ b) = areaCoeffOf a + areaCoeffOf b := by
  simp [areaCoeffOf]

theorem map_preserve_ids_area {f : Dand → Dand}
    (hf : ∀ d, (f d).id = d.id ∧ (f d).size = d.size) (l : List Dand) :
    (l.map f).map Dand.id = l.map Dand.id ∧
      areaCoeffOf (l.map f) = areaCoeffOf l := by
  induction l with
  | nil => exact ⟨rfl, rfl⟩
  | cons x xs ih =>
      simp only [List.map_cons, areaCoeffOf, List.sum_cons] at ih ⊢
      exact ⟨by rw [(hf x).1, ih.1], by rw [(hf x).2, ih.2]⟩

theorem spawnDandelion_WF {s : GState} (h : WF s) (pos : ℚ × ℚ)
    (size : DandelionSize) (health : ℕ) :
    WF (spawnDandelion s pos size health) := by
  obtain ⟨hnd, hidb, harea⟩ := h
  refine ⟨?_, ?_, ?_⟩
  · show ((s.dands ++ [_]).map Dand.id).Nodup
    rw [List.map_append]
    apply List.Nodup.append hnd (by simp)
    intro x hx1 hx2
    simp only [List.map_cons, List.map_nil, List.mem_singleton] at hx2
    subst hx2
    simp only [List.mem_map] at hx1
    obtain ⟨d, hd, hde⟩ := hx1
    have := hidb d hd
    omega
  · intro d hd
    show d.id < s.nextId + 1
    rcases List.mem_append.1 hd with hd | hd
    · have := hidb d hd
      omega
    · simp only [List.mem_singleton] at hd
      subst hd
      show s.nextId < s.nextId + 1
      omega
  · show s.area + size.visualAreaCoeff = areaCoeffOf (s.dands ++ [_])
    rw [areaCoeffOf_append, harea]
    simp [areaCoeffOf]

theorem destroyDandelion_WF {s : GState} (h : WF s) (e : ℕ) :
    WF (destroyDandelion s e) := by
  obtain ⟨hnd, hidb, harea⟩ := h
  unfold destroyDandelion
  rcases hfind : s.dands.find? (fun d => d.id = e) with _ | d
  · rw [hfind]
    exact ⟨hnd, hidb, harea⟩
  · rw [hfind]
    have hdm : d ∈ s.dands := List.mem_of_find?_eq_some hfind
    have hde : d.id = e := by simpa using List.find?_some hfind
    refine ⟨?_, ?_, ?_⟩
    · exact ((List.filter_sublist _).map Dand.id).nodup hnd
    · intro d2 hd2
      exact hidb d2 ((List.filter_sublist _).subset hd2)
    · show s.area - d.size.visualAreaCoeff = _
      rw [areaCoeff_filter_ne hnd hdm hde, harea]

theorem damageDandelion_WF {s : GState} (h : WF s) (e : ℕ) :
    WF (damageDandelion s e) := by
  unfold damageDandelion
  rcases hfind : s.dands.find? (fun d => d.id = e) with _ | d
  · rw [hfind]
    exact h
  · rw [hfind]
    show WF (if d.health - 1 = 0 then destroyDandelion s e
      else { s with dands := s.dands.map (fun x =>
        if x.id = e then { x with health := x.health - 1 } else x) })
    by_cases hh : d.health - 1 = 0
    · rw [if_pos hh]
      exact destroyDandelion_WF h e
    · rw [if_neg hh]
      obtain ⟨hnd, hidb, harea⟩ := h
      have hp := map_preserve_ids_area (f := fun x =>
        if x.id = e then { x with health := x.health - 1 } else x)
        (fun d2 => by by_cases hd2 : d2.id = e <;> simp [hd2]) s.dands
      refine ⟨?_, ?_, ?_⟩
      · show ((s.dands.map _).map Dand.id).Nodup
        rw [hp.1]
        exact hnd
      · intro d2 hd2
        simp only [List.mem_map] at hd2
        obtain ⟨d3, hd3, hd3e⟩ := hd2
        show d2.id < s.nextId
        rw [← hd3e]
        have := hidb d3 hd3
        by_cases hc : d3.id = e <;> simp [hc] <;> omega
      · show s.area = areaCoeffOf (s.dands.map _)
        rw [hp.2]
        exact harea

theorem upgradeTick_WF {s : GState} (h : WF s) : WF (upgradeTick s) := by
  obtain ⟨h1, h2, h3, h4, h5, h6, h7, h8⟩ := upgradeResult_inv s h.1
  have hp := map_preserve_ids_area (f := fun d =>
    { d with
      cooldown := d.cooldown || (upgradeResult s).pendCd.contains d.id
      moving := d.moving || (upgradeResult s).pendMv.contains d.id })
    (fun d => ⟨rfl, rfl⟩) (upgradeResult s).dands
  refine ⟨?_, ?_, ?_⟩
  · show (((upgradeResult s).dands.map _).map Dand.id).Nodup
    rw [hp.1, h6]
    exact h.1
  · intro d hd
    show d.id < s.nextId
    simp only [upgradeTick, applyPend, List.mem_map] at hd
    obtain ⟨d2, hd2, hd2e⟩ := hd
    rw [← hd2e]
    show d2.id < s.nextId
    have hid : d2.id ∈ s.dands.map Dand.id := by
      rw [← h6]
      exact List.mem_map_of_mem _ hd2
    simp only [List.mem_map] at hid
    obtain ⟨d3, hd3, hd3e⟩ := hid
    rw [← hd3e]
    exact h.2.1 d3 hd3
  · show (upgradeResult s).area = areaCoeffOf (applyPend _ _ _)
    show (upgradeResult s).area = areaCoeffOf ((upgradeResult s).dands.map _)
    rw [hp.2]
    have := h.2.2
    linarith [h8]

theorem fire_area_split (fires : List Fire) (l : List Dand) :
    areaCoeffOf l =
      areaCoeffOf (l.filter (fun d => firstHitGen fires d.pos = none)) +
        areaCoeffOf ((fireKills fires l).map Prod.fst) := by
  induction l with
  | nil => simp [fireKills, areaCoeffOf]
  | cons d rest ih =>
      by_cases hfd : firstHitGen fires d.pos = none
      · rw [List.filter_cons_of_pos (by simpa using hfd)]
        have hk : fireKills fires (d :: rest) = fireKills fires rest := by
          unfold fireKills
          rw [List.filterMap_cons]
          simp [hfd]
        rw [hk]
        simp only [areaCoeffOf, List.map_cons, List.sum_cons] at ih ⊢
        linarith
      · rw [List.filter_cons_of_neg (by simpa using hfd)]
        rcases hg : firstHitGen fires d.pos with _ | g
        · exact absurd hg hfd
        · have hk : fireKills fires (d :: rest) = (d, g) :: fireKills fires rest := by
            unfold fireKills
            rw [List.filterMap_cons]
            simp [hg]
          rw [hk]
          simp only [areaCoeffOf, List.map_cons, List.sum_cons] at ih ⊢
          linarith

theorem fireTick_WF {s : GState} (h : WF s) : WF (fireTick s) := by
  obtain ⟨hnd, hidb, harea⟩ := h
  refine ⟨?_, ?_, ?_⟩
  · exact ((List.filter_sublist _).map Dand.id).nodup hnd
  · intro d hd
    exact hidb d ((List.filter_sublist _).subset hd)
  · show s.area - areaCoeffOf ((fireKills s.fires s.dands).map Prod.fst) =
      areaCoeffOf (s.dands.filter (fun d => firstHitGen s.fires d.pos = none))
    have := fire_area_split s.fires s.dands
    rw [harea]
    linarith

theorem igniteFire_WF {s : GState} (h : WF s) (pos : ℚ × ℚ) :
    WF (igniteFire s pos) := h

theorem ReachTracked_WF : ∀ s : GState, ReachTracked s → WF s := by
  intro s h
  induction h with
  | init => exact ⟨by simp [initState], by simp [initState], by simp [initState, areaCoeffOf]⟩
  | spawn s pos size health _ ih => exact spawnDandelion_WF ih pos size health
  | damage s e _ ih => exact damageDandelion_WF ih e
  | destroy s e _ ih => exact destroyDandelion_WF ih e
  | merge s _ ih => exact mergeTick_WF ih
  | upgrade s _ ih => exact upgradeTick_WF ih
  | fire s _ ih => exact fireTick_WF ih
  | ignite s pos _ ih => exact igniteFire_WF ih pos

theorem visual_area_sum (l : List Dand) :
    (l.map (fun d => d.size.visual_area)).sum =
      Real.pi * ((areaCoeffOf l : ℚ) : ℝ) := by
  induction l with
  | nil => simp [areaCoeffOf]
  | cons d rest ih =>
      simp only [List.map_cons, List.sum_cons, areaCoeffOf] at ih ⊢
      rw [ih]
      unfold DandelionSize.visual_area
      push_cast
      ring

/-- Claim C1 (the code breaks it): along every reachable state of the
tracked operations (spawn, click/slash damage, destroy, merge, the upgrade
pass, the fire tick, ignition) the DandelionAreaTracker equals the sum of
visual_area over the live dandelions; but spawn_dandelion_ring (reachable
through the debug key D) spawns 12 Tiny dandelions without touching the
tracker, after which the equality is false. -/
theorem area_tracker_invariant :
    (∀ s : GState, ReachTracked s →
      Real.pi * ((s.area : ℚ) : ℝ) =
        ((s.dands.map (fun d => d.size.visual_area)).sum)) ∧
    (∀ ringPos : Fin 12 → ℚ × ℚ,
      ¬ (Real.pi * (((spawnDandelionRing initState ringPos).area : ℚ) : ℝ) =
        (((spawnDandelionRing initState ringPos).dands.map
          (fun d => d.size.visual_area)).sum))) := by
  constructor
  · intro s h
    rw [visual_area_sum, (ReachTracked_WF s h).2.2]
  · intro ringPos
    rw [visual_area_sum]
    intro hcontra
    have hpi := Real.pi_ne_zero
    have harea : (spawnDandelionRing initState ringPos).area = 0 := rfl
    have hcoeff : areaCoeffOf (spawnDandelionRing initState ringPos).dands = 3675 := by
      show areaCoeffOf ([] ++ (List.finRange 12).map _) = 3675
      rw [List.nil_append]
      unfold areaCoeffOf
      rw [List.map_map]
      rw [show ((List.finRange 12).map
          ((fun d => d.size.visualAreaCoeff) ∘ (fun i =>
            (⟨initState.nextId + i.val, ringPos i, DandelionSize.Tiny, 1,
              false, false⟩ : Dand)))) =
          (List.finRange 12).map (fun _ => DandelionSize.Tiny.visualAreaCoeff) by
        apply List.map_congr_left
        intro i _
        rfl]
      rw [List.map_const', List.sum_replicate, List.length_finRange]
      norm_num [DandelionSize.visualAreaCoeff, DandelionSize.collision_radius,
        DandelionSize.sizeMultiplier]
    rw [harea, hcoeff] at hcontra
    push_cast at hcontra
    have : Real.pi * 3675 = 0 := by linarith
    rcases mul_eq_zero.1 this with h | h
    · exact hpi h
    · norm_num at h

/-- Witness for C1: the invariant at the initial state, and the broken
equality after a ring spawn at the origin. -/
theorem area_tracker_invariant_witness :
    (Real.pi * ((initState.area : ℚ) : ℝ) =
      ((initState.dands.map (fun d => d.size.visual_area)).sum)) ∧
    ¬ (Real.pi * (((spawnDandelionRing initState (fun _ => (0, 0))).area : ℚ) : ℝ) =
      (((spawnDandelionRing initState (fun _ => (0, 0))).dands.map
        (fun d => d.size.visual_area)).sum)) :=
  ⟨area_tracker_invariant.1 initState ReachTracked.init,
   area_tracker_invariant.2 (fun _ => (0, 0))⟩

end KillAllDandelions
